import Mathlib

/-!
Verification of the classification/normalization core of the CSV-Data-Processor
repository: the rule-driven category grouper (`GetGroup`, `AddRule`,
`levenshteinDistance` from the grouper source file) and the open-vocabulary
term normalizer (`NormalizeTerm`, `GetCanonicalTerms`, `MergeSimilarTerms`,
`calculateSimilarity` from `term_normalizer.go`).

Modelling conventions:
* A Go string is modelled as its list of bytes (`GoString := List Nat`);
  the Go code indexes strings byte-wise (`s[i]`, `len(s)`), which this
  mirrors exactly.  String literals used in the development are ASCII, where
  Go's UTF-8 bytes coincide with the code points; the sole multi-byte
  example writes its UTF-8 bytes explicitly.
* The ASCII fragment of `strings.ToLower`, `strings.TrimSpace` and
  `strings.Fields` is modelled (the rule table and every example are ASCII).
* Go `float64` arithmetic is modelled by exact rational arithmetic (`ℚ`);
  every comparison appearing in proofs is far from the binary rounding error
  of the concrete computations involved.
* Go maps are modelled as association lists (`mapGet`/`mapSet`); `mapSet`
  overwrites the existing binding or appends a new one, which matches Go map
  assignment.  Where Go iterates over an unordered map the model fixes the
  source-declaration / insertion order.
-/

namespace GoModel

set_option maxRecDepth 200000

/-- A Go string: its sequence of bytes (UTF-8 code units), each in 0..255. -/
abbrev GoString := List Nat

/-- Bytes of an ASCII Lean string literal.  For ASCII text the UTF-8 bytes of
the Go string are exactly the code points of its characters. -/
def strBytes (s : String) : GoString := s.data.map Char.toNat

/-- ASCII whitespace recognised by Go's `unicode.IsSpace` on single bytes. -/
def isSpaceByte (b : Nat) : Bool :=
  b = 32 || b = 9 || b = 10 || b = 11 || b = 12 || b = 13

/-- ASCII lowering of one byte: the byte-level action of `strings.ToLower`. -/
def toLowerByte (b : Nat) : Nat := if 65 ≤ b ∧ b ≤ 90 then b + 32 else b

/-- Models `strings.ToLower` on ASCII data. -/
def goToLower (s : GoString) : GoString := s.map toLowerByte

/-- Models `strings.TrimSpace` on ASCII data: drop leading and trailing
whitespace bytes. -/
def goTrimSpace (s : GoString) : GoString :=
  ((s.dropWhile isSpaceByte).reverse.dropWhile isSpaceByte).reverse

/-- Models `strings.Fields` on ASCII data: the maximal runs of
non-whitespace bytes. -/
def goFields (s : GoString) : List GoString :=
  (s.splitOnP isSpaceByte).filter (fun t => ¬ t.isEmpty)

/-- The cleaning step `strings.ToLower(strings.TrimSpace(s))` shared by
`GetGroup` and `NormalizeTerm`. -/
def goClean (s : GoString) : GoString := goToLower (goTrimSpace s)

/-- First binding of a key in an association list: Go map lookup. -/
def mapGet {β : Type} (m : List (GoString × β)) (k : GoString) : Option β :=
  match m with
  | [] => none
  | (a, b) :: rest => if a = k then some b else mapGet rest k

/-- Go map assignment `m[k] = v`: overwrite the binding of `k` if present,
otherwise append a new binding. -/
def mapSet {β : Type} (m : List (GoString × β)) (k : GoString) (v : β) :
    List (GoString × β) :=
  match m with
  | [] => [(k, v)]
  | (a, b) :: rest => if a = k then (a, v) :: rest else (a, b) :: mapSet rest k v

/-- Keys of an association list. -/
def mapKeys {β : Type} (m : List (GoString × β)) : List GoString := m.map Prod.fst

/-- Go helper `min(a, b, c int) int` from the grouper source. -/
def min3 (a b c : Nat) : Nat :=
  if a < b then (if a < c then a else c) else (if b < c then b else c)

/-- Go helper `abs(x int) int` (also `absTwo` in `term_normalizer.go`). -/
def absTwo (x : Int) : Int := if x < 0 then -x else x

/-- Go helper `maxTwo(a, b int) int` from `term_normalizer.go`. -/
def maxTwo (a b : Nat) : Nat := if a > b then a else b

/-- Go helper `minTwo(a, b int) int` from `term_normalizer.go`. -/
def minTwo (a b : Nat) : Nat := if a < b then a else b

theorem min3_eq (a b c : Nat) : min3 a b c = min (min a b) c := by
  unfold min3
  rw [Nat.min_def, Nat.min_def]
  split_ifs <;> omega

theorem maxTwo_eq (a b : Nat) : maxTwo a b = max a b := by
  unfold maxTwo; rw [Nat.max_def]; split_ifs <;> omega

theorem minTwo_eq (a b : Nat) : minTwo a b = min a b := by
  unfold minTwo; rw [Nat.min_def]; split_ifs <;> omega

/-!  The Levenshtein table of `levenshteinDistance` (grouper source).
The Go code fills the `(len(s1)+1) × (len(s2)+1)` table
`matrix[i][j] = min(matrix[i-1][j]+1, matrix[i][j-1]+1, matrix[i-1][j-1]+cost)`
with borders `matrix[i][0] = i`, `matrix[0][j] = j`; entry `(i, j)` is the
distance between the length-`i` prefix of `s1` and the length-`j` prefix of
`s2`.  The model computes the same table one row at a time, oriented on
suffixes: `levSuffixRows s2 s1` is the list of distances of `s1` against
every suffix of `s2` (longest suffix first), and the recurrence satisfied by
the rows is exactly the Go recurrence (`levRec_cons_cons` below). -/

/-- One row step of the Levenshtein table: from the row for `xs` (against
every suffix of the second string) to the row for `c1 :: xs`. -/
def levRow (c1 : Nat) : List Nat → List Nat → List Nat
  | c2 :: cs, p0 :: p1 :: ps =>
    let rest := levRow c1 cs (p1 :: ps)
    let cost : Nat := if c1 = c2 then 0 else 1
    min3 (p0 + 1) (rest.headD 0 + 1) (p1 + cost) :: rest
  | _, p => [p.headD 0 + 1]

/-- All rows of the Levenshtein table for first string `xs`, as the list of
distances of `xs` against each suffix of `s2` (longest first). -/
def levSuffixRows (s2 : List Nat) : List Nat → List Nat
  | [] => s2.tails.map List.length
  | c1 :: xs => levRow c1 s2 (levSuffixRows s2 xs)

/-- Models `levenshteinDistance(s1, s2 string) int` from the grouper source,
including its two early returns for empty inputs. -/
def levenshteinDistance (s1 s2 : GoString) : Nat :=
  if s1.length = 0 then s2.length
  else if s2.length = 0 then s1.length
  else (levSuffixRows s2 s1).headD 0

/-- The Go Levenshtein recurrence as a recursive function, used as the
specification of the table computation. -/
def levRec : List Nat → List Nat → Nat
  | [], ys => ys.length
  | x :: xs, [] => (x :: xs).length
  | x :: xs, y :: ys =>
    min3 (levRec xs (y :: ys) + 1) (levRec (x :: xs) ys + 1)
      (levRec xs ys + (if x = y then 0 else 1))

theorem levRec_nil_right (xs : List Nat) : levRec xs [] = xs.length := by
  cases xs <;> simp [levRec]

theorem levRow_spec (c1 : Nat) (xs : List Nat) :
    ∀ s2 : List Nat,
      levRow c1 s2 (s2.tails.map (fun t => levRec xs t)) =
        s2.tails.map (fun t => levRec (c1 :: xs) t) := by
  intro s2
  induction s2 with
  | nil => simp [levRow, levRec_nil_right]
  | cons c2 cs ih =>
    obtain ⟨rest, hts⟩ : ∃ rest, cs.tails = cs :: rest := by cases cs <;> simp
    simp only [List.tails_cons, hts, List.map_cons] at ih ⊢
    simp only [levRow, ih, List.headD_cons]
    congr 1
    conv_rhs => rw [levRec]

theorem levSuffixRows_spec (s2 : List Nat) (xs : List Nat) :
    levSuffixRows s2 xs = s2.tails.map (fun t => levRec xs t) := by
  induction xs with
  | nil =>
    simp only [levSuffixRows]
    exact List.map_congr_left (fun t _ => by cases t <;> simp [levRec])
  | cons c1 xs ih => rw [levSuffixRows, ih, levRow_spec]

/-- The table computation agrees with the recurrence. -/
theorem levenshteinDistance_eq (s1 s2 : GoString) :
    levenshteinDistance s1 s2 = levRec s1 s2 := by
  unfold levenshteinDistance
  rcases s1 with - | ⟨x, xs⟩
  · simp [levRec]
  · rcases s2 with - | ⟨y, ys⟩
    · simp [levRec]
    · rw [if_neg (by simp), if_neg (by simp), levSuffixRows_spec]
      simp

/-!  The LCS table of `longestCommonSubsequence` (`term_normalizer.go`).
The Go code fills `dp[i][j] = dp[i-1][j-1]+1` when `s1[i-1] == s2[j-1]` and
`dp[i][j] = max(dp[i-1][j], dp[i][j-1])` otherwise, with zero borders; the
model computes the same table row by row in the suffix orientation used for
the Levenshtein table above. -/

/-- One row step of the LCS table. -/
def lcsRow (c1 : Nat) : List Nat → List Nat → List Nat
  | c2 :: cs, p0 :: p1 :: ps =>
    let rest := lcsRow c1 cs (p1 :: ps)
    (if c1 = c2 then p1 + 1 else maxTwo p0 (rest.headD 0)) :: rest
  | _, _ => [0]

/-- All rows of the LCS table for first string `xs`, as the list of LCS
lengths of `xs` against each suffix of `s2` (longest first). -/
def lcsSuffixRows (s2 : List Nat) : List Nat → List Nat
  | [] => s2.tails.map (fun _ => 0)
  | c1 :: xs => lcsRow c1 s2 (lcsSuffixRows s2 xs)

/-- Models `longestCommonSubsequence(s1, s2 string) int` from
`term_normalizer.go`, including its early return for empty inputs. -/
def longestCommonSubsequence (s1 s2 : GoString) : Nat :=
  if s1.length = 0 ∨ s2.length = 0 then 0
  else (lcsSuffixRows s2 s1).headD 0

/-- The Go LCS recurrence as a recursive function, used as the specification
of the table computation. -/
def lcsRec : List Nat → List Nat → Nat
  | [], _ => 0
  | _ :: _, [] => 0
  | x :: xs, y :: ys =>
    if x = y then lcsRec xs ys + 1
    else maxTwo (lcsRec xs (y :: ys)) (lcsRec (x :: xs) ys)

theorem lcsRec_nil_right (xs : List Nat) : lcsRec xs [] = 0 := by
  cases xs <;> simp [lcsRec]

theorem lcsRow_spec (c1 : Nat) (xs : List Nat) :
    ∀ s2 : List Nat,
      lcsRow c1 s2 (s2.tails.map (fun t => lcsRec xs t)) =
        s2.tails.map (fun t => lcsRec (c1 :: xs) t) := by
  intro s2
  induction s2 with
  | nil => simp [lcsRow, lcsRec_nil_right]
  | cons c2 cs ih =>
    obtain ⟨rest, hts⟩ : ∃ rest, cs.tails = cs :: rest := by cases cs <;> simp
    simp only [List.tails_cons, hts, List.map_cons] at ih ⊢
    simp only [lcsRow, ih, List.headD_cons]
    congr 1
    conv_rhs => rw [lcsRec]

theorem lcsSuffixRows_spec (s2 : List Nat) (xs : List Nat) :
    lcsSuffixRows s2 xs = s2.tails.map (fun t => lcsRec xs t) := by
  induction xs with
  | nil =>
    simp only [lcsSuffixRows]
    exact List.map_congr_left (fun t _ => by cases t <;> simp [lcsRec])
  | cons c1 xs ih => rw [lcsSuffixRows, ih, lcsRow_spec]

/-- The table computation agrees with the recurrence. -/
theorem longestCommonSubsequence_eq (s1 s2 : GoString) :
    longestCommonSubsequence s1 s2 = lcsRec s1 s2 := by
  unfold longestCommonSubsequence
  rcases s1 with - | ⟨x, xs⟩
  · simp [lcsRec]
  · rcases s2 with - | ⟨y, ys⟩
    · simp [lcsRec_nil_right]
    · rw [if_neg (by simp), lcsSuffixRows_spec]
      simp

/-- Models `longestCommonPrefix(s1, s2 string) string` from
`term_normalizer.go`: compare byte by byte up to the shorter length and
return the shared prefix. -/
def prefixCommon : GoString → GoString → GoString
  | x :: xs, y :: ys => if x = y then x :: prefixCommon xs ys else []
  | _, _ => []

/-- Models `calculateTokenOverlap(tokens1, tokens2 []string) float64` from
`term_normalizer.go`: Go builds the member set of `tokens1` and counts the
elements of `tokens2` (with multiplicity) that belong to it, divided by the
larger list length. -/
def calculateTokenOverlap (tokens1 tokens2 : List GoString) : ℚ :=
  if tokens1.length = 0 ∧ tokens2.length = 0 then 1
  else if tokens1.length = 0 ∨ tokens2.length = 0 then 0
  else
    let overlap := tokens2.countP (fun t => t ∈ tokens1)
    (overlap : ℚ) / (maxTwo tokens1.length tokens2.length : ℚ)

/-- Models `calculateSimilarity(s1, s2 string) float64` from
`term_normalizer.go`, with `float64` replaced by exact rationals. -/
def calculateSimilarity (s1 s2 : GoString) : ℚ :=
  let lenDiff := absTwo ((s1.length : Int) - (s2.length : Int))
  let maxLen := maxTwo s1.length s2.length
  if maxLen = 0 then 0
  else
    let lengthPenalty : ℚ := if (lenDiff : ℚ) / (maxLen : ℚ) > 0.2 then 0.8 else 1
    let lcs := longestCommonSubsequence s1 s2
    let lcsFrac : ℚ := (lcs : ℚ) / (maxLen : ℚ)
    let distance := levenshteinDistance s1 s2
    let levFrac : ℚ := 1 - (distance : ℚ) / (maxLen : ℚ)
    let tokenOverlap := calculateTokenOverlap (goFields s1) (goFields s2)
    let pre := prefixCommon s1 s2
    let prefixBonus : ℚ := if pre.length ≥ 5 ∧ (pre.length : ℚ) / (maxLen : ℚ) > 0.6 then 0.1 else 0
    (lcsFrac * 0.25 + levFrac * 0.5 + tokenOverlap * 0.25 + prefixBonus) * lengthPenalty

/-!  The category grouper from the grouper source file.  The Go
`CategoryGrouper` holds a single map `rules : map[string]string`; map
iteration order in Go is unspecified, and the model fixes the
source-declaration / insertion order.  The base table has no keyword that is
assigned to two different categories, so the content of the rules map does
not depend on iteration order.  Go's empty string (the "no result" sentinel
of `GetGroup`) is the empty byte string `[]`. -/

/-- The curated table `categoryDefinitions` from the grouper source, in
source order: category name paired with its keyword synonyms. -/
def categoryDefinitions : List (GoString × List GoString) := [
  (strBytes "doctor", [strBytes "cardiologist", strBytes "neurologist", strBytes "ent", strBytes "orthopedic", strBytes "pediatrician", strBytes "dermatologist", strBytes "psychiatrist", strBytes "surgeon", strBytes "physician", strBytes "doctor", strBytes "dentist", strBytes "orthodontist", strBytes "oncologist", strBytes "radiologist", strBytes "dr", strBytes "doc", strBytes "md", strBytes "medical doctor"]),
  (strBytes "software engineer", [strBytes "developer", strBytes "programmer", strBytes "software engineer", strBytes "coder", strBytes "frontend developer", strBytes "backend developer", strBytes "full stack developer", strBytes "web developer", strBytes "mobile developer", strBytes "devops engineer", strBytes "software engineering", strBytes "software development", strBytes "web development", strBytes "mobile development", strBytes "application development", strBytes "coding", strBytes "software", strBytes "dev", strBytes "swe", strBytes "se"]),
  (strBytes "lawyer", [strBytes "lawyer", strBytes "attorney", strBytes "advocate", strBytes "solicitor", strBytes "barrister", strBytes "legal counsel", strBytes "legal advisor", strBytes "atty", strBytes "esq", strBytes "legal"]),
  (strBytes "teacher", [strBytes "teacher", strBytes "professor", strBytes "instructor", strBytes "educator", strBytes "tutor", strBytes "lecturer", strBytes "trainer", strBytes "prof"]),
  (strBytes "manager", [strBytes "manager", strBytes "director", strBytes "executive", strBytes "ceo", strBytes "cto", strBytes "cfo", strBytes "president", strBytes "vp", strBytes "vice president", strBytes "team lead", strBytes "mgr", strBytes "supervisor", strBytes "lead"]),
  (strBytes "designer", [strBytes "designer", strBytes "graphic designer", strBytes "ui designer", strBytes "ux designer", strBytes "product designer", strBytes "artist", strBytes "illustrator", strBytes "branding", strBytes "brand", strBytes "visual design", strBytes "creative design", strBytes "ux", strBytes "ui", strBytes "graphic"]),
  (strBytes "sales professional", [strBytes "sales", strBytes "salesperson", strBytes "sales rep", strBytes "sales representative", strBytes "account executive", strBytes "business development", strBytes "marketing", strBytes "marketing manager", strBytes "brand manager", strBytes "copywriting", strBytes "positioning", strBytes "strategy", strBytes "insight", strBytes "sales rep", strBytes "ae", strBytes "bdm"]),
  (strBytes "accountant", [strBytes "accountant", strBytes "auditor", strBytes "financial analyst", strBytes "bookkeeper", strBytes "tax consultant", strBytes "chartered accountant", strBytes "cpa", strBytes "ca", strBytes "finance"]),
  (strBytes "engineer", [strBytes "engineer", strBytes "mechanical engineer", strBytes "civil engineer", strBytes "electrical engineer", strBytes "chemical engineer", strBytes "aerospace engineer", strBytes "industrial engineer", strBytes "environmental engineer", strBytes "biomedical engineer", strBytes "eng", strBytes "engr"]),
  (strBytes "healthcare professional", [strBytes "nurse", strBytes "pharmacist", strBytes "therapist", strBytes "physiotherapist", strBytes "paramedic", strBytes "medical assistant", strBytes "lab technician", strBytes "radiographer", strBytes "dietitian", strBytes "nutritionist", strBytes "rn", strBytes "lpn", strBytes "medical staff"]),
  (strBytes "construction worker", [strBytes "construction worker", strBytes "contractor", strBytes "builder", strBytes "carpenter", strBytes "electrician", strBytes "plumber", strBytes "mason", strBytes "welder", strBytes "tradesman"]),
  (strBytes "hospitality professional", [strBytes "chef", strBytes "cook", strBytes "waiter", strBytes "waitress", strBytes "bartender", strBytes "hotel manager", strBytes "receptionist", strBytes "concierge", strBytes "server", strBytes "hospitality"]),
  (strBytes "retail professional", [strBytes "cashier", strBytes "store manager", strBytes "retail assistant", strBytes "sales associate", strBytes "merchandiser", strBytes "stock clerk"]),
  (strBytes "transportation worker", [strBytes "driver", strBytes "truck driver", strBytes "delivery driver", strBytes "pilot", strBytes "captain", strBytes "logistics coordinator", strBytes "dispatcher"]),
  (strBytes "manufacturing worker", [strBytes "factory worker", strBytes "production supervisor", strBytes "assembly line worker", strBytes "quality inspector", strBytes "machine operator", strBytes "foreman"]),
  (strBytes "public servant", [strBytes "police officer", strBytes "firefighter", strBytes "government official", strBytes "civil servant", strBytes "social worker", strBytes "public administrator"]),
  (strBytes "media professional", [strBytes "journalist", strBytes "reporter", strBytes "editor", strBytes "writer", strBytes "author", strBytes "photographer", strBytes "videographer", strBytes "content creator"]),
  (strBytes "researcher", [strBytes "scientist", strBytes "researcher", strBytes "analyst", strBytes "data scientist", strBytes "biologist", strBytes "chemist", strBytes "physicist", strBytes "research assistant", strBytes "research", strBytes "analysis", strBytes "data analysis", strBytes "scientific research"]),
  (strBytes "hr professional", [strBytes "hr", strBytes "human resources", strBytes "recruiter", strBytes "talent acquisition", strBytes "hr manager", strBytes "hr specialist", strBytes "hiring manager", strBytes "recruitment", strBytes "talent"]),
  (strBytes "security professional", [strBytes "security", strBytes "cybersecurity", strBytes "information security", strBytes "network security", strBytes "security analyst", strBytes "security engineer", strBytes "homeland security", strBytes "airport security", strBytes "screening", strBytes "explosive detection", strBytes "cargo screening", strBytes "checkpoint screening", strBytes "baggage screening"]),
  (strBytes "technology specialist", [strBytes "technology", strBytes "advanced technology", strBytes "innovation", strBytes "tech", strBytes "it specialist", strBytes "systems analyst", strBytes "network administrator", strBytes "database administrator", strBytes "cloud computing", strBytes "ai", strBytes "machine learning", strBytes "computed tomography", strBytes "ct scan", strBytes "imaging technology"]),
  (strBytes "internet professional", [strBytes "internet", strBytes "internet marketing", strBytes "digital marketing", strBytes "digital", strBytes "seo", strBytes "sem", strBytes "search engine optimization", strBytes "search engine marketing", strBytes "online marketing", strBytes "web marketing", strBytes "ecommerce", strBytes "e-commerce", strBytes "social media marketing", strBytes "content marketing", strBytes "email marketing", strBytes "technicalseo", strBytes "technical seo", strBytes "digitaltransformation", strBytes "digital transformation", strBytes "marketingautomation", strBytes "marketing automation", strBytes "crm"]),
  (strBytes "drawings", [strBytes "drawings", strBytes "sketch", strBytes "blueprint", strBytes "draft", strBytes "illustration", strBytes "diagram"]),
  (strBytes "design", [strBytes "design"])]

/-- Models `initializeRules`: insert every keyword of every category,
lowercased, into the rules map. -/
def initRules : List (GoString × GoString) :=
  categoryDefinitions.foldl
    (fun rules p => p.2.foldl (fun r kw => mapSet r (goToLower kw) p.1) rules) []

/-- The rules map written out literally: the bindings `initRules` produces,
in first-insertion order (the one repeated keyword, "sales rep", is
overwritten in place with the same category). -/
def rulesList : List (GoString × GoString) := [
  (strBytes "cardiologist", strBytes "doctor"),
  (strBytes "neurologist", strBytes "doctor"),
  (strBytes "ent", strBytes "doctor"),
  (strBytes "orthopedic", strBytes "doctor"),
  (strBytes "pediatrician", strBytes "doctor"),
  (strBytes "dermatologist", strBytes "doctor"),
  (strBytes "psychiatrist", strBytes "doctor"),
  (strBytes "surgeon", strBytes "doctor"),
  (strBytes "physician", strBytes "doctor"),
  (strBytes "doctor", strBytes "doctor"),
  (strBytes "dentist", strBytes "doctor"),
  (strBytes "orthodontist", strBytes "doctor"),
  (strBytes "oncologist", strBytes "doctor"),
  (strBytes "radiologist", strBytes "doctor"),
  (strBytes "dr", strBytes "doctor"),
  (strBytes "doc", strBytes "doctor"),
  (strBytes "md", strBytes "doctor"),
  (strBytes "medical doctor", strBytes "doctor"),
  (strBytes "developer", strBytes "software engineer"),
  (strBytes "programmer", strBytes "software engineer"),
  (strBytes "software engineer", strBytes "software engineer"),
  (strBytes "coder", strBytes "software engineer"),
  (strBytes "frontend developer", strBytes "software engineer"),
  (strBytes "backend developer", strBytes "software engineer"),
  (strBytes "full stack developer", strBytes "software engineer"),
  (strBytes "web developer", strBytes "software engineer"),
  (strBytes "mobile developer", strBytes "software engineer"),
  (strBytes "devops engineer", strBytes "software engineer"),
  (strBytes "software engineering", strBytes "software engineer"),
  (strBytes "software development", strBytes "software engineer"),
  (strBytes "web development", strBytes "software engineer"),
  (strBytes "mobile development", strBytes "software engineer"),
  (strBytes "application development", strBytes "software engineer"),
  (strBytes "coding", strBytes "software engineer"),
  (strBytes "software", strBytes "software engineer"),
  (strBytes "dev", strBytes "software engineer"),
  (strBytes "swe", strBytes "software engineer"),
  (strBytes "se", strBytes "software engineer"),
  (strBytes "lawyer", strBytes "lawyer"),
  (strBytes "attorney", strBytes "lawyer"),
  (strBytes "advocate", strBytes "lawyer"),
  (strBytes "solicitor", strBytes "lawyer"),
  (strBytes "barrister", strBytes "lawyer"),
  (strBytes "legal counsel", strBytes "lawyer"),
  (strBytes "legal advisor", strBytes "lawyer"),
  (strBytes "atty", strBytes "lawyer"),
  (strBytes "esq", strBytes "lawyer"),
  (strBytes "legal", strBytes "lawyer"),
  (strBytes "teacher", strBytes "teacher"),
  (strBytes "professor", strBytes "teacher"),
  (strBytes "instructor", strBytes "teacher"),
  (strBytes "educator", strBytes "teacher"),
  (strBytes "tutor", strBytes "teacher"),
  (strBytes "lecturer", strBytes "teacher"),
  (strBytes "trainer", strBytes "teacher"),
  (strBytes "prof", strBytes "teacher"),
  (strBytes "manager", strBytes "manager"),
  (strBytes "director", strBytes "manager"),
  (strBytes "executive", strBytes "manager"),
  (strBytes "ceo", strBytes "manager"),
  (strBytes "cto", strBytes "manager"),
  (strBytes "cfo", strBytes "manager"),
  (strBytes "president", strBytes "manager"),
  (strBytes "vp", strBytes "manager"),
  (strBytes "vice president", strBytes "manager"),
  (strBytes "team lead", strBytes "manager"),
  (strBytes "mgr", strBytes "manager"),
  (strBytes "supervisor", strBytes "manager"),
  (strBytes "lead", strBytes "manager"),
  (strBytes "designer", strBytes "designer"),
  (strBytes "graphic designer", strBytes "designer"),
  (strBytes "ui designer", strBytes "designer"),
  (strBytes "ux designer", strBytes "designer"),
  (strBytes "product designer", strBytes "designer"),
  (strBytes "artist", strBytes "designer"),
  (strBytes "illustrator", strBytes "designer"),
  (strBytes "branding", strBytes "designer"),
  (strBytes "brand", strBytes "designer"),
  (strBytes "visual design", strBytes "designer"),
  (strBytes "creative design", strBytes "designer"),
  (strBytes "ux", strBytes "designer"),
  (strBytes "ui", strBytes "designer"),
  (strBytes "graphic", strBytes "designer"),
  (strBytes "sales", strBytes "sales professional"),
  (strBytes "salesperson", strBytes "sales professional"),
  (strBytes "sales rep", strBytes "sales professional"),
  (strBytes "sales representative", strBytes "sales professional"),
  (strBytes "account executive", strBytes "sales professional"),
  (strBytes "business development", strBytes "sales professional"),
  (strBytes "marketing", strBytes "sales professional"),
  (strBytes "marketing manager", strBytes "sales professional"),
  (strBytes "brand manager", strBytes "sales professional"),
  (strBytes "copywriting", strBytes "sales professional"),
  (strBytes "positioning", strBytes "sales professional"),
  (strBytes "strategy", strBytes "sales professional"),
  (strBytes "insight", strBytes "sales professional"),
  (strBytes "ae", strBytes "sales professional"),
  (strBytes "bdm", strBytes "sales professional"),
  (strBytes "accountant", strBytes "accountant"),
  (strBytes "auditor", strBytes "accountant"),
  (strBytes "financial analyst", strBytes "accountant"),
  (strBytes "bookkeeper", strBytes "accountant"),
  (strBytes "tax consultant", strBytes "accountant"),
  (strBytes "chartered accountant", strBytes "accountant"),
  (strBytes "cpa", strBytes "accountant"),
  (strBytes "ca", strBytes "accountant"),
  (strBytes "finance", strBytes "accountant"),
  (strBytes "engineer", strBytes "engineer"),
  (strBytes "mechanical engineer", strBytes "engineer"),
  (strBytes "civil engineer", strBytes "engineer"),
  (strBytes "electrical engineer", strBytes "engineer"),
  (strBytes "chemical engineer", strBytes "engineer"),
  (strBytes "aerospace engineer", strBytes "engineer"),
  (strBytes "industrial engineer", strBytes "engineer"),
  (strBytes "environmental engineer", strBytes "engineer"),
  (strBytes "biomedical engineer", strBytes "engineer"),
  (strBytes "eng", strBytes "engineer"),
  (strBytes "engr", strBytes "engineer"),
  (strBytes "nurse", strBytes "healthcare professional"),
  (strBytes "pharmacist", strBytes "healthcare professional"),
  (strBytes "therapist", strBytes "healthcare professional"),
  (strBytes "physiotherapist", strBytes "healthcare professional"),
  (strBytes "paramedic", strBytes "healthcare professional"),
  (strBytes "medical assistant", strBytes "healthcare professional"),
  (strBytes "lab technician", strBytes "healthcare professional"),
  (strBytes "radiographer", strBytes "healthcare professional"),
  (strBytes "dietitian", strBytes "healthcare professional"),
  (strBytes "nutritionist", strBytes "healthcare professional"),
  (strBytes "rn", strBytes "healthcare professional"),
  (strBytes "lpn", strBytes "healthcare professional"),
  (strBytes "medical staff", strBytes "healthcare professional"),
  (strBytes "construction worker", strBytes "construction worker"),
  (strBytes "contractor", strBytes "construction worker"),
  (strBytes "builder", strBytes "construction worker"),
  (strBytes "carpenter", strBytes "construction worker"),
  (strBytes "electrician", strBytes "construction worker"),
  (strBytes "plumber", strBytes "construction worker"),
  (strBytes "mason", strBytes "construction worker"),
  (strBytes "welder", strBytes "construction worker"),
  (strBytes "tradesman", strBytes "construction worker"),
  (strBytes "chef", strBytes "hospitality professional"),
  (strBytes "cook", strBytes "hospitality professional"),
  (strBytes "waiter", strBytes "hospitality professional"),
  (strBytes "waitress", strBytes "hospitality professional"),
  (strBytes "bartender", strBytes "hospitality professional"),
  (strBytes "hotel manager", strBytes "hospitality professional"),
  (strBytes "receptionist", strBytes "hospitality professional"),
  (strBytes "concierge", strBytes "hospitality professional"),
  (strBytes "server", strBytes "hospitality professional"),
  (strBytes "hospitality", strBytes "hospitality professional"),
  (strBytes "cashier", strBytes "retail professional"),
  (strBytes "store manager", strBytes "retail professional"),
  (strBytes "retail assistant", strBytes "retail professional"),
  (strBytes "sales associate", strBytes "retail professional"),
  (strBytes "merchandiser", strBytes "retail professional"),
  (strBytes "stock clerk", strBytes "retail professional"),
  (strBytes "driver", strBytes "transportation worker"),
  (strBytes "truck driver", strBytes "transportation worker"),
  (strBytes "delivery driver", strBytes "transportation worker"),
  (strBytes "pilot", strBytes "transportation worker"),
  (strBytes "captain", strBytes "transportation worker"),
  (strBytes "logistics coordinator", strBytes "transportation worker"),
  (strBytes "dispatcher", strBytes "transportation worker"),
  (strBytes "factory worker", strBytes "manufacturing worker"),
  (strBytes "production supervisor", strBytes "manufacturing worker"),
  (strBytes "assembly line worker", strBytes "manufacturing worker"),
  (strBytes "quality inspector", strBytes "manufacturing worker"),
  (strBytes "machine operator", strBytes "manufacturing worker"),
  (strBytes "foreman", strBytes "manufacturing worker"),
  (strBytes "police officer", strBytes "public servant"),
  (strBytes "firefighter", strBytes "public servant"),
  (strBytes "government official", strBytes "public servant"),
  (strBytes "civil servant", strBytes "public servant"),
  (strBytes "social worker", strBytes "public servant"),
  (strBytes "public administrator", strBytes "public servant"),
  (strBytes "journalist", strBytes "media professional"),
  (strBytes "reporter", strBytes "media professional"),
  (strBytes "editor", strBytes "media professional"),
  (strBytes "writer", strBytes "media professional"),
  (strBytes "author", strBytes "media professional"),
  (strBytes "photographer", strBytes "media professional"),
  (strBytes "videographer", strBytes "media professional"),
  (strBytes "content creator", strBytes "media professional"),
  (strBytes "scientist", strBytes "researcher"),
  (strBytes "researcher", strBytes "researcher"),
  (strBytes "analyst", strBytes "researcher"),
  (strBytes "data scientist", strBytes "researcher"),
  (strBytes "biologist", strBytes "researcher"),
  (strBytes "chemist", strBytes "researcher"),
  (strBytes "physicist", strBytes "researcher"),
  (strBytes "research assistant", strBytes "researcher"),
  (strBytes "research", strBytes "researcher"),
  (strBytes "analysis", strBytes "researcher"),
  (strBytes "data analysis", strBytes "researcher"),
  (strBytes "scientific research", strBytes "researcher"),
  (strBytes "hr", strBytes "hr professional"),
  (strBytes "human resources", strBytes "hr professional"),
  (strBytes "recruiter", strBytes "hr professional"),
  (strBytes "talent acquisition", strBytes "hr professional"),
  (strBytes "hr manager", strBytes "hr professional"),
  (strBytes "hr specialist", strBytes "hr professional"),
  (strBytes "hiring manager", strBytes "hr professional"),
  (strBytes "recruitment", strBytes "hr professional"),
  (strBytes "talent", strBytes "hr professional"),
  (strBytes "security", strBytes "security professional"),
  (strBytes "cybersecurity", strBytes "security professional"),
  (strBytes "information security", strBytes "security professional"),
  (strBytes "network security", strBytes "security professional"),
  (strBytes "security analyst", strBytes "security professional"),
  (strBytes "security engineer", strBytes "security professional"),
  (strBytes "homeland security", strBytes "security professional"),
  (strBytes "airport security", strBytes "security professional"),
  (strBytes "screening", strBytes "security professional"),
  (strBytes "explosive detection", strBytes "security professional"),
  (strBytes "cargo screening", strBytes "security professional"),
  (strBytes "checkpoint screening", strBytes "security professional"),
  (strBytes "baggage screening", strBytes "security professional"),
  (strBytes "technology", strBytes "technology specialist"),
  (strBytes "advanced technology", strBytes "technology specialist"),
  (strBytes "innovation", strBytes "technology specialist"),
  (strBytes "tech", strBytes "technology specialist"),
  (strBytes "it specialist", strBytes "technology specialist"),
  (strBytes "systems analyst", strBytes "technology specialist"),
  (strBytes "network administrator", strBytes "technology specialist"),
  (strBytes "database administrator", strBytes "technology specialist"),
  (strBytes "cloud computing", strBytes "technology specialist"),
  (strBytes "ai", strBytes "technology specialist"),
  (strBytes "machine learning", strBytes "technology specialist"),
  (strBytes "computed tomography", strBytes "technology specialist"),
  (strBytes "ct scan", strBytes "technology specialist"),
  (strBytes "imaging technology", strBytes "technology specialist"),
  (strBytes "internet", strBytes "internet professional"),
  (strBytes "internet marketing", strBytes "internet professional"),
  (strBytes "digital marketing", strBytes "internet professional"),
  (strBytes "digital", strBytes "internet professional"),
  (strBytes "seo", strBytes "internet professional"),
  (strBytes "sem", strBytes "internet professional"),
  (strBytes "search engine optimization", strBytes "internet professional"),
  (strBytes "search engine marketing", strBytes "internet professional"),
  (strBytes "online marketing", strBytes "internet professional"),
  (strBytes "web marketing", strBytes "internet professional"),
  (strBytes "ecommerce", strBytes "internet professional"),
  (strBytes "e-commerce", strBytes "internet professional"),
  (strBytes "social media marketing", strBytes "internet professional"),
  (strBytes "content marketing", strBytes "internet professional"),
  (strBytes "email marketing", strBytes "internet professional"),
  (strBytes "technicalseo", strBytes "internet professional"),
  (strBytes "technical seo", strBytes "internet professional"),
  (strBytes "digitaltransformation", strBytes "internet professional"),
  (strBytes "digital transformation", strBytes "internet professional"),
  (strBytes "marketingautomation", strBytes "internet professional"),
  (strBytes "marketing automation", strBytes "internet professional"),
  (strBytes "crm", strBytes "internet professional"),
  (strBytes "drawings", strBytes "drawings"),
  (strBytes "sketch", strBytes "drawings"),
  (strBytes "blueprint", strBytes "drawings"),
  (strBytes "draft", strBytes "drawings"),
  (strBytes "illustration", strBytes "drawings"),
  (strBytes "diagram", strBytes "drawings"),
  (strBytes "design", strBytes "design")]

/-- Evaluating the `initializeRules` fold yields exactly the literal list
(proved once; later computations use the literal form). -/
theorem initRules_eq : initRules = rulesList := by decide

/-- Tier 2 of `GetGroup`: return the category of the first rule key that
occurs space-padded inside the space-padded cleaned input
(`strings.Contains(" "+cleaned+" ", " "+key+" ")`). -/
def substringTier (rules : List (GoString × GoString)) (cleaned : GoString) :
    Option GoString :=
  match rules with
  | [] => none
  | (key, group) :: rest =>
    if ([32] ++ key ++ [32]) <:+: ([32] ++ cleaned ++ [32]) then some group
    else substringTier rest cleaned

/-- Tier 3 of `GetGroup`: scan the rules for keys whose length differs from
the cleaned input by at most 1 while the input has length at least 5, and
keep the first strict improvement with edit distance at most
`maxDistance = 1` (`bestDistance` starts at 999). -/
def fuzzyStep (cleaned : GoString) (acc : Option GoString × Nat)
    (p : GoString × GoString) : Option GoString × Nat :=
  if absTwo ((cleaned.length : Int) - (p.1.length : Int)) ≤ 1 ∧ cleaned.length ≥ 5 then
    let distance := levenshteinDistance cleaned p.1
    if distance < acc.2 ∧ distance ≤ 1 then (some p.2, distance) else acc
  else acc

/-- Tier 3 of `GetGroup` as a whole: fold the loop body over the rules with
`bestMatch = ""` (modelled `none`) and `bestDistance = 999`. -/
def fuzzyTier (rules : List (GoString × GoString)) (cleaned : GoString) :
    Option GoString :=
  (rules.foldl (fuzzyStep cleaned) (none, 999)).1

/-- Models `GetGroup(category string) string`: clean, then exact match, then
whole-word substring match, then bounded fuzzy match, else unclassified. -/
def getGroup (rules : List (GoString × GoString)) (category : GoString) : GoString :=
  let cleaned := goClean category
  if cleaned = [] then []
  else
    match mapGet rules cleaned with
    | some group => group
    | none =>
      match substringTier rules cleaned with
      | some group => group
      | none =>
        match fuzzyTier rules cleaned with
        | some group => group
        | none => []

/-- Models `AddRule(term, group string)`: the key is lowercased but not
trimmed. -/
def addRule (rules : List (GoString × GoString)) (term group : GoString) :
    List (GoString × GoString) :=
  mapSet rules (goToLower term) group

/-! ### Properties of the grouper tiers -/

/-- The tier 3 fold either leaves the accumulator's match untouched or
returns the category of some rule key passing the bounded-fuzzy filters. -/
theorem fuzzyFold_spec (cleaned : GoString) (rs : List (GoString × GoString)) :
    ∀ acc : Option GoString × Nat,
      (rs.foldl (fuzzyStep cleaned) acc).1 = acc.1 ∨
      ∃ k c, (k, c) ∈ rs ∧ (rs.foldl (fuzzyStep cleaned) acc).1 = some c ∧
        cleaned.length ≥ 5 ∧
        absTwo ((cleaned.length : Int) - (k.length : Int)) ≤ 1 ∧
        levenshteinDistance cleaned k ≤ 1 := by
  induction rs with
  | nil => intro acc; left; rfl
  | cons p rs ih =>
    intro acc
    rw [List.foldl_cons]
    rcases ih (fuzzyStep cleaned acc p) with h | ⟨k, c, hk, hres, h5, hd, hl⟩
    · rw [h]
      simp only [fuzzyStep]
      split_ifs with h1 h2
      · right
        refine ⟨p.1, p.2, List.mem_cons_self p rs, rfl, h1.2, h1.1, h2.2⟩
      · left; rfl
      · left; rfl
    · right; exact ⟨k, c, List.mem_cons_of_mem p hk, hres, h5, hd, hl⟩

/-- If tier 3 produces a category then the cleaned input has length at least
5 and some rule key within length difference 1 and edit distance 1 yields it. -/
theorem fuzzyTier_spec (rules : List (GoString × GoString)) (cleaned : GoString)
    (g : GoString) (h : fuzzyTier rules cleaned = some g) :
    cleaned.length ≥ 5 ∧
    ∃ k, (k, g) ∈ rules ∧
      absTwo ((cleaned.length : Int) - (k.length : Int)) ≤ 1 ∧
      levenshteinDistance cleaned k ≤ 1 := by
  unfold fuzzyTier at h
  rcases fuzzyFold_spec cleaned rules (none, 999) with h0 | ⟨k, c, hk, hres, h5, hd, hl⟩
  · rw [h] at h0; cases h0
  · rw [h] at hres
    cases hres
    exact ⟨h5, k, hk, hd, hl⟩

/-- If tier 2 produces a category then it is the category of a rule key that
occurs space-padded inside the space-padded cleaned input. -/
theorem substringTier_spec (rules : List (GoString × GoString))
    (cleaned : GoString) (g : GoString)
    (h : substringTier rules cleaned = some g) :
    ∃ k, (k, g) ∈ rules ∧ ([32] ++ k ++ [32]) <:+: ([32] ++ cleaned ++ [32]) := by
  induction rules with
  | nil => cases h
  | cons p rs ih =>
    unfold substringTier at h
    by_cases hin : ([32] ++ p.1 ++ [32]) <:+: ([32] ++ cleaned ++ [32])
    · rw [if_pos hin] at h
      cases h
      exact ⟨p.1, List.mem_cons_self p rs, hin⟩
    · rw [if_neg hin] at h
      obtain ⟨k, hk, hk2⟩ := ih h
      exact ⟨k, List.mem_cons_of_mem p hk, hk2⟩

/-! ### Claim theorems for the grouper (C3, C4, C5) -/

/-- Looking up the key of any binding of a map with distinct keys returns
that binding's value. -/
theorem mapGet_of_mem_nodup {β : Type} :
    ∀ {m : List (GoString × β)}, (mapKeys m).Nodup →
      ∀ {p : GoString × β}, p ∈ m → mapGet m p.1 = some p.2 := by
  intro m
  induction m with
  | nil => intro _ p hp; cases hp
  | cons q rest ih =>
    intro hnd p hp
    rcases List.mem_cons.mp hp with h | h
    · subst h
      unfold mapGet
      rw [if_pos rfl]
    · have hne : q.1 ≠ p.1 := by
        intro he
        have hk : p.1 ∈ mapKeys rest := List.mem_map_of_mem Prod.fst h
        rw [← he] at hk
        exact (List.nodup_cons.mp hnd).1 hk
      unfold mapGet
      rw [if_neg hne]
      exact ih (List.nodup_cons.mp hnd).2 h

/-- A clean nonempty key present in the rules map is classified by the
exact-match tier. -/
theorem getGroup_of_mapGet {rules : List (GoString × GoString)} {k v : GoString}
    (hclean : goClean k = k) (hne : k ≠ []) (h : mapGet rules k = some v) :
    getGroup rules k = v := by
  unfold getGroup
  rw [hclean, if_neg hne, h]

/-- C3: every keyword in the rule table is classified, by the exact-match
tier on the lowercase-trimmed input, to the category of its rule: for every
binding of the rules map, looking the key up gives its category and
`GetGroup` returns that category. -/
theorem claimC3 :
    ∀ p ∈ initRules, mapGet initRules p.1 = some p.2 ∧
      getGroup initRules p.1 = p.2 := by
  rw [initRules_eq]
  have hnd : (mapKeys rulesList).Nodup := by decide
  have hall : ∀ q ∈ rulesList, goClean q.1 = q.1 ∧ q.1 ≠ [] := by decide
  intro p hp
  have hget := mapGet_of_mem_nodup hnd hp
  exact ⟨hget, getGroup_of_mapGet (hall p hp).1 (hall p hp).2 hget⟩

/-- Witness for C3 at the rule ("cardiologist", "doctor"). -/
theorem claimC3_witness :
    (strBytes "cardiologist", strBytes "doctor") ∈ initRules ∧
      mapGet initRules (strBytes "cardiologist") = some (strBytes "doctor") ∧
      getGroup initRules (strBytes "cardiologist") = strBytes "doctor" :=
  ⟨by rw [initRules_eq]; decide,
    claimC3 (strBytes "cardiologist", strBytes "doctor") (by rw [initRules_eq]; decide)⟩

/-- C4: the fuzzy tier fires only for cleaned inputs of length at least 5,
only against keys whose length differs by at most 1, and only at edit
distance at most 1; in particular "docter" is classified "doctor" through
it, and "xyzzyqwerty123" is not matched by this tier. -/
theorem claimC4 :
    (∀ (rules : List (GoString × GoString)) (cleaned g : GoString),
      fuzzyTier rules cleaned = some g →
        cleaned.length ≥ 5 ∧
        ∃ k, (k, g) ∈ rules ∧
          absTwo ((cleaned.length : Int) - (k.length : Int)) ≤ 1 ∧
          levenshteinDistance cleaned k ≤ 1) ∧
    getGroup initRules (strBytes "docter") = strBytes "doctor" ∧
    fuzzyTier initRules (goClean (strBytes "xyzzyqwerty123")) = none ∧
    getGroup initRules (strBytes "xyzzyqwerty123") = [] :=
  ⟨fuzzyTier_spec, by rw [initRules_eq]; decide, by rw [initRules_eq]; decide,
    by rw [initRules_eq]; decide⟩

/-- Witness for C4: the fuzzy tier on "docter" yields "doctor", with the
general conjunct instantiated there. -/
theorem claimC4_witness :
    fuzzyTier initRules (goClean (strBytes "docter")) = some (strBytes "doctor") ∧
    ((goClean (strBytes "docter")).length ≥ 5 ∧
      ∃ k, (k, strBytes "doctor") ∈ initRules ∧
        absTwo (((goClean (strBytes "docter")).length : Int) - (k.length : Int)) ≤ 1 ∧
        levenshteinDistance (goClean (strBytes "docter")) k ≤ 1) :=
  ⟨by rw [initRules_eq]; decide,
    claimC4.1 initRules (goClean (strBytes "docter")) (strBytes "doctor")
      (by rw [initRules_eq]; decide)⟩

/-- C5: the substring tier matches a rule key only when the space-padded key
occurs inside the space-padded cleaned input, so keys match only as
space-delimited token sequences and never as fragments of a larger word; in
particular "front-end developer" is classified "software engineer" via the
key "developer", while "developers" (where "developer" occurs only inside a
larger word) is not matched by this tier. -/
theorem claimC5 :
    (∀ (rules : List (GoString × GoString)) (cleaned g : GoString),
      substringTier rules cleaned = some g →
        ∃ k, (k, g) ∈ rules ∧ ([32] ++ k ++ [32]) <:+: ([32] ++ cleaned ++ [32])) ∧
    substringTier initRules (goClean (strBytes "front-end developer")) =
      some (strBytes "software engineer") ∧
    getGroup initRules (strBytes "front-end developer") = strBytes "software engineer" ∧
    substringTier initRules (goClean (strBytes "developers")) = none :=
  ⟨substringTier_spec, by rw [initRules_eq]; decide, by rw [initRules_eq]; decide,
    by rw [initRules_eq]; decide⟩

/-- Witness for C5: the general conjunct instantiated at "front-end
developer". -/
theorem claimC5_witness :
    ∃ k, (k, strBytes "software engineer") ∈ initRules ∧
      ([32] ++ k ++ [32]) <:+:
        ([32] ++ goClean (strBytes "front-end developer") ++ [32]) :=
  claimC5.1 initRules (goClean (strBytes "front-end developer"))
    (strBytes "software engineer") (by rw [initRules_eq]; decide)

/-! ### Edit scripts and minimality of the Levenshtein computation (C8, C9) -/

/-- Aligned edit scripts: `Edits a b n` holds when `a` is transformed into
`b` by `n` single-element insertions, deletions, or substitutions (kept
elements cost nothing). -/
inductive Edits : List Nat → List Nat → Nat → Prop
  | nil : Edits [] [] 0
  | keep {xs ys n} (c : Nat) : Edits xs ys n → Edits (c :: xs) (c :: ys) n
  | subst {xs ys n} (a b : Nat) : Edits xs ys n → Edits (a :: xs) (b :: ys) (n + 1)
  | ins {xs ys n} (b : Nat) : Edits xs ys n → Edits xs (b :: ys) (n + 1)
  | del {xs ys n} (a : Nat) : Edits xs ys n → Edits (a :: xs) ys (n + 1)

theorem Edits.nil_left : ∀ ys : List Nat, Edits [] ys ys.length
  | [] => .nil
  | y :: ys => .ins y (Edits.nil_left ys)

theorem Edits.nil_right : ∀ xs : List Nat, Edits xs [] xs.length
  | [] => .nil
  | x :: xs => .del x (Edits.nil_right xs)

theorem Edits.symm {xs ys : List Nat} {n : Nat} (h : Edits xs ys n) :
    Edits ys xs n := by
  induction h with
  | nil => exact .nil
  | keep c _ ih => exact .keep c ih
  | subst a b _ ih => exact .subst b a ih
  | ins b _ ih => exact .del b ih
  | del a _ ih => exact .ins a ih

theorem min3_cases (a b c : Nat) : min3 a b c = a ∨ min3 a b c = b ∨ min3 a b c = c := by
  rw [min3_eq]
  rcases min_choice (min a b) c with h | h
  · rcases min_choice a b with h2 | h2
    · left; rw [h, h2]
    · right; left; rw [h, h2]
  · right; right; exact h

/-- The recurrence value is achieved by some edit script. -/
theorem Edits.of_levRec : ∀ xs ys : List Nat, Edits xs ys (levRec xs ys) := by
  intro xs
  induction xs with
  | nil => intro ys; rw [levRec]; exact Edits.nil_left ys
  | cons x xs ihx =>
    intro ys
    induction ys with
    | nil => rw [levRec_nil_right]; exact Edits.nil_right _
    | cons y ys ihy =>
      rw [levRec]
      rcases min3_cases (levRec xs (y :: ys) + 1) (levRec (x :: xs) ys + 1)
        (levRec xs ys + (if x = y then 0 else 1)) with h | h | h
      · rw [h]; exact .del x (ihx (y :: ys))
      · rw [h]; exact .ins y ihy
      · rw [h]
        by_cases hxy : x = y
        · subst hxy
          simp only [if_pos rfl, Nat.add_zero]
          exact .keep x (ihx ys)
        · rw [if_neg hxy]
          exact .subst x y (ihx ys)

theorem min3_le_left (a b c : Nat) : min3 a b c ≤ a := by
  rw [min3_eq]; exact le_trans (Nat.min_le_left _ _) (Nat.min_le_left _ _)

theorem min3_le_mid (a b c : Nat) : min3 a b c ≤ b := by
  rw [min3_eq]; exact le_trans (Nat.min_le_left _ _) (Nat.min_le_right _ _)

theorem min3_le_right (a b c : Nat) : min3 a b c ≤ c := by
  rw [min3_eq]; exact Nat.min_le_right _ _

/-- The recurrence value is a lower bound for every edit script. -/
theorem levRec_le_of_edits {xs ys : List Nat} {n : Nat} (h : Edits xs ys n) :
    levRec xs ys ≤ n := by
  induction h with
  | nil => rw [levRec]; simp
  | keep c h ih =>
    rw [levRec]
    refine le_trans (min3_le_right _ _ _) ?_
    simp only [if_pos rfl, Nat.add_zero]
    exact ih
  | subst a b h ih =>
    rw [levRec]
    refine le_trans (min3_le_right _ _ _) ?_
    refine le_trans (Nat.add_le_add ih ?_) (le_refl _)
    split_ifs <;> omega
  | @ins xs2 ys2 n2 b h ih =>
    rcases xs2 with - | ⟨x, xs2⟩
    · rw [levRec]
      rw [levRec] at ih
      simpa using Nat.succ_le_succ ih
    · rw [levRec]
      exact le_trans (min3_le_mid _ _ _) (Nat.succ_le_succ ih)
  | @del xs2 ys2 n2 a h ih =>
    rcases ys2 with - | ⟨y, ys2⟩
    · rw [levRec_nil_right]
      rw [levRec_nil_right] at ih
      simpa using Nat.succ_le_succ ih
    · rw [levRec]
      exact le_trans (min3_le_left _ _ _) (Nat.succ_le_succ ih)

/-- C8: the edit-distance primitive returns the minimum number of
single-element insertions, deletions and substitutions transforming its
first argument into the second: the returned value is achieved by an edit
script and bounds every edit script from below; moreover distance of a
string to itself is 0, distance from the empty string is the length, the
function is symmetric, and distance("kitten", "sitting") is 3. -/
theorem claimC8 :
    (∀ a b : GoString, Edits a b (levenshteinDistance a b)) ∧
    (∀ (a b : GoString) (n : Nat), Edits a b n → levenshteinDistance a b ≤ n) ∧
    (∀ s : GoString, levenshteinDistance s s = 0) ∧
    (∀ s : GoString, levenshteinDistance [] s = s.length) ∧
    (∀ a b : GoString, levenshteinDistance a b = levenshteinDistance b a) ∧
    levenshteinDistance (strBytes "kitten") (strBytes "sitting") = 3 := by
  have hach : ∀ a b : GoString, Edits a b (levenshteinDistance a b) := by
    intro a b; rw [levenshteinDistance_eq]; exact Edits.of_levRec a b
  have hmin : ∀ (a b : GoString) (n : Nat), Edits a b n → levenshteinDistance a b ≤ n := by
    intro a b n h; rw [levenshteinDistance_eq]; exact levRec_le_of_edits h
  have hself : ∀ s : GoString, levenshteinDistance s s = 0 := by
    intro s
    have h0 : Edits s s 0 := by
      induction s with
      | nil => exact .nil
      | cons c s ih => exact .keep c ih
    exact Nat.le_zero.mp (hmin s s 0 h0)
  refine ⟨hach, hmin, hself, ?_, ?_, by decide⟩
  · intro s; rw [levenshteinDistance_eq, levRec]
  · intro a b
    exact Nat.le_antisymm (hmin a b _ (hach b a).symm) (hmin b a _ (hach a b).symm)

/-- Witness for C8: the minimality conjunct applied to a concrete script
deleting the first byte of "ab". -/
theorem claimC8_witness :
    Edits (strBytes "ab") (strBytes "b") 1 ∧
      levenshteinDistance (strBytes "ab") (strBytes "b") ≤ 1 := by
  have hsteps : Edits (strBytes "ab") (strBytes "b") 1 :=
    Edits.del 97 (Edits.keep 98 Edits.nil)
  exact ⟨hsteps, claimC8.2.1 (strBytes "ab") (strBytes "b") 1 hsteps⟩

/-- The UTF-8 byte sequence of the one-character Go string "é" (U+00E9):
two bytes, 0xC3 0xA9. -/
def eAcuteBytes : GoString := [195, 169]

/-- The code-point sequence of the same string: the single unit 233. -/
def eAcuteUnits : GoString := [233]

/-- Counterexample to C9: the Go code indexes strings byte-wise
(`s1[i-1] != s2[j-1]` on bytes), so the two bytes of "é" occupy two separate
positions of the cost table: the computed distance between "é" and "a" is 2,
whereas treating the code point as a single comparison unit gives distance 1
between the unit sequences. -/
theorem claimC9_counterexample :
    levenshteinDistance eAcuteBytes (strBytes "a") = 2 ∧
    levenshteinDistance eAcuteUnits (strBytes "a") = 1 ∧
    levenshteinDistance eAcuteBytes (strBytes "a") ≠
      levenshteinDistance eAcuteUnits (strBytes "a") := by
  refine ⟨by decide, by decide, by decide⟩

/-- C9 (amended): the edit-distance primitive operates on the UTF-8 bytes of
its arguments — every byte, including each byte of a multi-byte code point,
occupies one position of the cost table — and on those byte sequences it
computes the minimum number of single-byte edits; in particular the
distance between "é" and "a" is 2, counting the two bytes of "é"
separately. -/
theorem claimC9 :
    levenshteinDistance eAcuteBytes (strBytes "a") = 2 ∧
    (∀ a b : GoString, Edits a b (levenshteinDistance a b) ∧
      ∀ n : Nat, Edits a b n → levenshteinDistance a b ≤ n) := by
  refine ⟨by decide, fun a b => ⟨?_, fun n h => ?_⟩⟩
  · rw [levenshteinDistance_eq]; exact Edits.of_levRec a b
  · rw [levenshteinDistance_eq]; exact levRec_le_of_edits h

/-- Witness for C9: the minimality conjunct applied to the two-substitution
script from the bytes of "é" to the bytes of "ab". -/
theorem claimC9_witness :
    Edits eAcuteBytes (strBytes "ab") 2 ∧
      levenshteinDistance eAcuteBytes (strBytes "ab") ≤ 2 := by
  have hsteps : Edits eAcuteBytes (strBytes "ab") 2 :=
    Edits.subst 195 97 (Edits.subst 169 98 Edits.nil)
  exact ⟨hsteps, (claimC9.2 eAcuteBytes (strBytes "ab")).2 2 hsteps⟩

/-! ### The similarity formula (C7) -/

/-- Following the spec: the longer of the two byte lengths. -/
def specMaxLen (a b : GoString) : Nat := max a.length b.length

/-- Following the spec: lcsRatio, the LCS length over the longer length. -/
def specLcsFrac (a b : GoString) : ℚ :=
  (longestCommonSubsequence a b : ℚ) / (specMaxLen a b : ℚ)

/-- Following the spec: levRatio, one minus edit distance over the longer
length. -/
def specLevFrac (a b : GoString) : ℚ :=
  1 - (levenshteinDistance a b : ℚ) / (specMaxLen a b : ℚ)

/-- Following the spec's words for C7: the size of the intersection of the
whitespace-token SETS divided by the larger token-set size, 1 if both sets
are empty, 0 if exactly one is. -/
def specTokenOverlap (a b : GoString) : ℚ :=
  let ts1 := (goFields a).dedup
  let ts2 := (goFields b).dedup
  if ts1.length = 0 ∧ ts2.length = 0 then 1
  else if ts1.length = 0 ∨ ts2.length = 0 then 0
  else ((ts1.filter (fun t => t ∈ ts2)).length : ℚ) / (max ts1.length ts2.length : ℚ)

/-- Following the spec: a bonus of 0.1 when the longest common prefix has
length at least 5 and exceeds 60 percent of the longer length. -/
def specPrefixBonus (a b : GoString) : ℚ :=
  if (prefixCommon a b).length ≥ 5 ∧
      ((prefixCommon a b).length : ℚ) / (specMaxLen a b : ℚ) > 0.6 then 0.1 else 0

/-- Following the spec: a penalty factor of 0.8 when the length difference
exceeds 20 percent of the longer length. -/
def specLengthPenalty (a b : GoString) : ℚ :=
  if ((absTwo ((a.length : Int) - (b.length : Int)) : Int) : ℚ) / (specMaxLen a b : ℚ) > 0.2
  then 0.8 else 1

/-- The similarity formula exactly as the claim states it, with the
set-based token overlap. -/
def specSimilarity (a b : GoString) : ℚ :=
  (0.25 * specLcsFrac a b + 0.5 * specLevFrac a b + 0.25 * specTokenOverlap a b +
    specPrefixBonus a b) * specLengthPenalty a b

/-- The token overlap the code actually computes, written out: the number of
tokens of `b`, counted with multiplicity, that occur among the tokens of
`a`, divided by the larger token-list length. -/
def specTokenOverlapCount (a b : GoString) : ℚ :=
  if (goFields a).length = 0 ∧ (goFields b).length = 0 then 1
  else if (goFields a).length = 0 ∨ (goFields b).length = 0 then 0
  else (((goFields b).countP (fun t => t ∈ goFields a)) : ℚ) /
    (max (goFields a).length (goFields b).length : ℚ)

/-- The similarity formula with the multiplicity-counting token overlap. -/
def specSimilarityAmended (a b : GoString) : ℚ :=
  (0.25 * specLcsFrac a b + 0.5 * specLevFrac a b + 0.25 * specTokenOverlapCount a b +
    specPrefixBonus a b) * specLengthPenalty a b

unseal Rat.add Rat.mul Rat.inv Rat.sub Rat.ofScientific in
/-- Counterexample to C7: on a = "a a", b = "a" the code counts the
duplicated token "a" of the larger list against the token-list length 2
(overlap 1/2), while the claim's set semantics gives intersection size 1
over set size 1 (overlap 1): the code's score is 3/10, the claimed formula
gives 2/5. -/
theorem claimC7_counterexample :
    maxTwo (strBytes "a a").length (strBytes "a").length > 0 ∧
    calculateSimilarity (strBytes "a a") (strBytes "a") = 3 / 10 ∧
    specSimilarity (strBytes "a a") (strBytes "a") = 2 / 5 ∧
    calculateSimilarity (strBytes "a a") (strBytes "a") ≠
      specSimilarity (strBytes "a a") (strBytes "a") := by
  refine ⟨by decide, by decide, by decide, by decide⟩

/-- Some common sublist of `xs` and `ys` has length `lcsRec xs ys`. -/
theorem lcsRec_achieved :
    ∀ xs ys : List Nat,
      ∃ l : List Nat, l.Sublist xs ∧ l.Sublist ys ∧ l.length = lcsRec xs ys := by
  intro xs
  induction xs with
  | nil =>
    intro ys
    exact ⟨[], List.nil_sublist _, List.nil_sublist _, by rw [lcsRec]; rfl⟩
  | cons x xs ihx =>
    intro ys
    induction ys with
    | nil =>
      exact ⟨[], List.nil_sublist _, List.nil_sublist _, by rw [lcsRec_nil_right]; rfl⟩
    | cons y ys ihy =>
      rw [lcsRec]
      by_cases hxy : x = y
      · subst hxy
        rw [if_pos rfl]
        obtain ⟨l, h1, h2, h3⟩ := ihx ys
        exact ⟨x :: l, List.cons_sublist_cons.mpr h1, List.cons_sublist_cons.mpr h2,
          by simpa using h3⟩
      · rw [if_neg hxy, maxTwo_eq]
        rcases max_choice (lcsRec xs (y :: ys)) (lcsRec (x :: xs) ys) with h | h
        · rw [h]
          obtain ⟨l, h1, h2, h3⟩ := ihx (y :: ys)
          exact ⟨l, h1.cons x, h2, h3⟩
        · rw [h]
          obtain ⟨l, h1, h2, h3⟩ := ihy
          exact ⟨l, h1, h2.cons y, h3⟩

/-- Every common sublist of `xs` and `ys` has length at most `lcsRec xs ys`. -/
theorem length_le_lcsRec :
    ∀ (xs ys l : List Nat), l.Sublist xs → l.Sublist ys → l.length ≤ lcsRec xs ys := by
  intro xs
  induction xs with
  | nil =>
    intro ys l h1 _
    rw [List.sublist_nil] at h1
    subst h1
    simp
  | cons x xs ihx =>
    intro ys
    induction ys with
    | nil =>
      intro l _ h2
      rw [List.sublist_nil] at h2
      subst h2
      simp
    | cons y ys ihy =>
      intro l h1 h2
      rcases l with - | ⟨c, l⟩
      · simp
      rw [lcsRec]
      have h1c := h1
      have h2c := h2
      by_cases hxy : x = y
      · subst hxy
        rw [if_pos rfl]
        cases h1 with
        | cons d h1x =>
          cases h2 with
          | cons e h2x => exact le_trans (ihx ys _ h1x h2x) (Nat.le_succ _)
          | cons₂ e h2x =>
            have hl : l.Sublist xs := (List.sublist_cons_self _ l).trans h1x
            simpa using Nat.succ_le_succ (ihx ys l hl h2x)
        | cons₂ d h1x =>
          cases h2 with
          | cons e h2x =>
            have hl : l.Sublist ys := (List.sublist_cons_self _ l).trans h2x
            simpa using Nat.succ_le_succ (ihx ys l h1x hl)
          | cons₂ e h2x => simpa using Nat.succ_le_succ (ihx ys l h1x h2x)
      · rw [if_neg hxy, maxTwo_eq]
        cases h1 with
        | cons d h1x =>
          exact le_trans (ihx (y :: ys) _ h1x h2c) (le_max_left _ _)
        | cons₂ d h1x =>
          cases h2 with
          | cons e h2x => exact le_trans (ihy _ h1c h2x) (le_max_right _ _)
          | cons₂ e h2x => exact absurd rfl hxy

unseal Rat.add Rat.mul Rat.inv Rat.sub Rat.ofScientific in
/-- C7 (amended): for strings of positive maximal length the similarity
score equals the claimed weighted formula, except that the token-overlap
factor counts the tokens of the second argument with multiplicity against
the token set of the first, over the larger token-list length (not the
set-intersection over the larger set size); the LCS factor is the true
longest-common-subsequence length over the longer length. -/
theorem claimC7 :
    (∀ a b : GoString, maxTwo a.length b.length > 0 →
      calculateSimilarity a b = specSimilarityAmended a b) ∧
    (∀ a b : GoString,
      IsGreatest {n : Nat | ∃ l : List Nat, l.Sublist a ∧ l.Sublist b ∧ l.length = n}
        (longestCommonSubsequence a b)) := by
  constructor
  · intro a b h
    unfold calculateSimilarity specSimilarityAmended specLcsFrac specLevFrac
      specPrefixBonus specLengthPenalty specTokenOverlapCount calculateTokenOverlap
      specMaxLen
    rw [if_neg (by omega)]
    simp only [maxTwo_eq, Nat.cast_max]
    ring_nf
  · intro a b
    constructor
    · obtain ⟨l, h1, h2, h3⟩ := lcsRec_achieved a b
      exact ⟨l, h1, h2, h3.trans (longestCommonSubsequence_eq a b).symm⟩
    · rintro n ⟨l, h1, h2, rfl⟩
      rw [longestCommonSubsequence_eq]
      exact length_le_lcsRec a b l h1 h2

/-- Witness for C7: the amended formula instantiated at a = b = "ab". -/
theorem claimC7_witness :
    maxTwo (strBytes "ab").length (strBytes "ab").length > 0 ∧
      calculateSimilarity (strBytes "ab") (strBytes "ab") =
        specSimilarityAmended (strBytes "ab") (strBytes "ab") :=
  ⟨by decide, claimC7.1 (strBytes "ab") (strBytes "ab") (by decide)⟩

/-! ### The term normalizer (term_normalizer.go) -/

/-- A trie node of the canonical trie store: children indexed by byte,
terminal flag, canonical label (meaningful when terminal), and frequency
counter.  Children are an association list; Go indexes them by rune, which
coincides with bytes on the ASCII data handled here. -/
inductive TrieNode where
  | mk : List (Nat × TrieNode) → Bool → GoString → Nat → TrieNode

def TrieNode.children : TrieNode → List (Nat × TrieNode)
  | .mk ch _ _ _ => ch

def TrieNode.isEnd : TrieNode → Bool
  | .mk _ e _ _ => e

def TrieNode.canonicalTerm : TrieNode → GoString
  | .mk _ _ c _ => c

def TrieNode.frequency : TrieNode → Nat
  | .mk _ _ _ f => f

/-- A fresh node, as allocated by `NewTermNormalizer` and `insertIntoTrie`. -/
def TrieNode.empty : TrieNode := .mk [] false [] 0

/-- Child lookup in a node's children map. -/
def childGet (ch : List (Nat × TrieNode)) (c : Nat) : Option TrieNode :=
  match ch with
  | [] => none
  | (a, t) :: rest => if a = c then some t else childGet rest c

/-- Child assignment in a node's children map. -/
def childSet (ch : List (Nat × TrieNode)) (c : Nat) (t : TrieNode) :
    List (Nat × TrieNode) :=
  match ch with
  | [] => [(c, t)]
  | (a, u) :: rest => if a = c then (a, t) :: rest else (a, u) :: childSet rest c t

/-- Models `insertIntoTrie(term, canonical)`: walk/extend the trie along the
term's bytes, creating missing children, then mark the final node terminal,
overwrite its canonical label, and increment its frequency. -/
def trieInsert : GoString → TrieNode → GoString → TrieNode
  | [], node, canonical => .mk node.children true canonical (node.frequency + 1)
  | c :: rest, node, canonical =>
    let child := (childGet node.children c).getD TrieNode.empty
    .mk (childSet node.children c (trieInsert rest child canonical))
      node.isEnd node.canonicalTerm node.frequency

/-- The walk of `findLongestPrefixMatch`: follow the term's bytes while
children exist, remembering the canonical label of the last terminal node
passed; the accumulator starts as Go's `""` (here `[]`). -/
def flpmAux : TrieNode → GoString → GoString → GoString
  | _, [], last => last
  | node, c :: rest, last =>
    match childGet node.children c with
    | none => last
    | some child => flpmAux child rest (if child.isEnd then child.canonicalTerm else last)

/-- Models `findLongestPrefixMatch(term)`. -/
def findLongestPrefixMatch (root : TrieNode) (term : GoString) : GoString :=
  flpmAux root term []

/-- Models `getFrequency(term)`: the frequency at the exact terminal node of
the term's path, 0 when the path is missing or not terminal. -/
def getFrequency : TrieNode → GoString → Nat
  | node, [] => if node.isEnd then node.frequency else 0
  | node, c :: rest =>
    match childGet node.children c with
    | none => 0
    | some child => getFrequency child rest

/-- The `TermNormalizer` state: trie root, canonical-terms map, variations
map, and fuzzy-match cache. -/
structure TermNormalizer where
  root : TrieNode
  canonicalTerms : List (GoString × GoString)
  termVariations : List (GoString × List GoString)
  fuzzyMatchCache : List (GoString × GoString)

/-- Models `NewTermNormalizer()`. -/
def newTermNormalizer : TermNormalizer :=
  ⟨TrieNode.empty, [], [], []⟩

/-- Models `isSimilarByPrefix(term, canonical)` (renamed to fit this
development's lexical conventions): terms shorter than 5 bytes must equal
the candidate; otherwise the common prefix must cover at least 80 percent
of the shorter length. -/
def prefixSimilar (term canonical : GoString) : Bool :=
  if term.length < 5 then decide (term = canonical)
  else
    let commonPfx := prefixCommon term canonical
    let minLen := if canonical.length < term.length then canonical.length else term.length
    decide ((commonPfx.length : ℚ) ≥ (minLen : ℚ) * 0.8)

/-- The loop body of `findBestFuzzyMatch`: skip alias entries (key differs
from value), then keep a strictly better score that reaches the 0.80
threshold. -/
def fuzzyMatchStep (term : GoString) (acc : GoString × ℚ) (p : GoString × GoString) :
    GoString × ℚ :=
  if p.1 ≠ p.2 then acc
  else
    let score := calculateSimilarity term p.2
    if score > acc.2 ∧ score ≥ 0.80 then (p.2, score) else acc

/-- Models `findBestFuzzyMatch(term)`: scan the canonical-terms map
(`bestScore` starts at 0), returning `""` (here `[]`) when no canonical
entry scores at least 0.80. -/
def findBestFuzzyMatch (ct : List (GoString × GoString)) (term : GoString) : GoString :=
  (ct.foldl (fuzzyMatchStep term) ([], 0)).1

/-- Models `registerCanonicalTerm(term)`. -/
def registerCanonicalTerm (tn : TermNormalizer) (term : GoString) : TermNormalizer :=
  { tn with
    canonicalTerms := mapSet tn.canonicalTerms term term
    termVariations := mapSet tn.termVariations term [term]
    root := trieInsert term tn.root term }

/-- Models `NormalizeTerm(term)`: clean; empty input returns unchanged;
cache hit and exact hit return the stored canonical (bumping the trie
frequency); the sequential model performs the double-checked cache lookup
of the Go code literally; then the prefix heuristic, the fuzzy match
against canonical entries, and finally registration as a new canonical. -/
def normalizeTerm (tn : TermNormalizer) (term : GoString) : GoString × TermNormalizer :=
  let cleaned := goClean term
  if cleaned = [] then (term, tn)
  else
    match mapGet tn.fuzzyMatchCache cleaned with
    | some canonical => (canonical, { tn with root := trieInsert cleaned tn.root canonical })
    | none =>
      match mapGet tn.canonicalTerms cleaned with
      | some canonical => (canonical, { tn with root := trieInsert cleaned tn.root canonical })
      | none =>
        match mapGet tn.fuzzyMatchCache cleaned with
        | some canonical => (canonical, { tn with root := trieInsert cleaned tn.root canonical })
        | none =>
          let pm := findLongestPrefixMatch tn.root cleaned
          if pm ≠ [] ∧ prefixSimilar cleaned pm then
            (pm, { tn with
              fuzzyMatchCache := mapSet tn.fuzzyMatchCache cleaned pm
              canonicalTerms := mapSet tn.canonicalTerms cleaned pm
              root := trieInsert cleaned tn.root pm })
          else
            let bm := findBestFuzzyMatch tn.canonicalTerms cleaned
            if bm ≠ [] then
              (bm, { tn with
                fuzzyMatchCache := mapSet tn.fuzzyMatchCache cleaned bm
                canonicalTerms := mapSet tn.canonicalTerms cleaned bm
                root := trieInsert cleaned tn.root bm
                termVariations := mapSet tn.termVariations bm
                  ((mapGet tn.termVariations bm).getD [] ++ [cleaned]) })
            else
              (cleaned, registerCanonicalTerm tn cleaned)

/-- The comparison `sort.Slice` uses in `GetCanonicalTerms` (strictly larger
frequency first), as a non-strict total preorder for the model's stable
insertion sort; Go's `sort.Slice` leaves the order of equal-frequency
entries unspecified, and the model refines it to insertion order. -/
def freqGe (a b : GoString × Nat) : Prop := b.2 ≤ a.2

instance : DecidableRel freqGe := fun a b => Nat.decLe b.2 a.2

instance : IsTotal (GoString × Nat) freqGe := ⟨fun a b => Nat.le_total b.2 a.2⟩

instance : IsTrans (GoString × Nat) freqGe := ⟨fun _ _ _ h1 h2 => Nat.le_trans h2 h1⟩

/-- Models `GetCanonicalTerms()`: pair every key of the canonical-terms map
with its trie frequency, sort by non-increasing frequency, return the keys. -/
def getCanonicalTerms (tn : TermNormalizer) : List GoString :=
  (((tn.canonicalTerms.map (fun p => (p.1, getFrequency tn.root p.1))).insertionSort
    freqGe).map Prod.fst)

/-- The inner loop of `MergeSimilarTerms` for a fixed `term1` over the
canonicals after it.  `merged` is the old-to-new map built so far; every
addition to it is simultaneously the assignment made to the canonical-terms
map, so the final `merged` list, in order, is exactly the sequence of map
assignments the call performs. -/
def mergeInner (root : TrieNode) (t1 : GoString) :
    List GoString → List (GoString × GoString) → List (GoString × GoString)
  | [], merged => merged
  | t2 :: rest, merged =>
    if (mapGet merged t1).isSome then mergeInner root t1 rest merged
    else if (mapGet merged t2).isSome then mergeInner root t1 rest merged
    else if calculateSimilarity t1 t2 ≥ 0.85 then
      let freq1 := getFrequency root t1
      let freq2 := getFrequency root t2
      if freq1 > freq2 ∨ (freq1 = freq2 ∧ t1.length ≥ t2.length) then
        mergeInner root t1 rest (mapSet merged t2 t1)
      else
        mergeInner root t1 rest (mapSet merged t1 t2)
    else mergeInner root t1 rest merged

/-- The outer loop of `MergeSimilarTerms`. -/
def mergeOuter (root : TrieNode) :
    List GoString → List (GoString × GoString) → List (GoString × GoString)
  | [], merged => merged
  | t1 :: rest, merged => mergeOuter root rest (mergeInner root t1 rest merged)

/-- Replay the assignments `canonicalTerms[merge] = keep` in order. -/
def applyMerges (ct : List (GoString × GoString)) (ms : List (GoString × GoString)) :
    List (GoString × GoString) :=
  ms.foldl (fun m p => mapSet m p.1 p.2) ct

/-- Models `MergeSimilarTerms()`. -/
def mergeSimilarTerms (tn : TermNormalizer) : TermNormalizer :=
  { tn with
    canonicalTerms :=
      applyMerges tn.canonicalTerms (mergeOuter tn.root (getCanonicalTerms tn) []) }

/-- Normalizer states reachable by `NormalizeTerm` calls alone. -/
inductive ReachN : TermNormalizer → Prop
  | init : ReachN newTermNormalizer
  | step {tn} (x : GoString) : ReachN tn → ReachN (normalizeTerm tn x).2

/-- Normalizer states reachable by `NormalizeTerm` and `MergeSimilarTerms`
calls. -/
inductive Reach : TermNormalizer → Prop
  | init : Reach newTermNormalizer
  | step {tn} (x : GoString) : Reach tn → Reach (normalizeTerm tn x).2
  | merge {tn} : Reach tn → Reach (mergeSimilarTerms tn)

/-! ### Counterexample scenarios for the normalizer claims (C1, C2) -/

/-- The byte string "alpha beta gamma". -/
def nrmA : GoString := strBytes "alpha beta gamma"

/-- The byte string "alpha beta gammax". -/
def nrmB : GoString := strBytes "alpha beta gammax"

/-- The state after normalizing "abcdef" (registered as a fresh canonical)
and then "abcdefg" (accepted by the prefix heuristic as an alias of
"abcdef"). -/
def stateC2 : TermNormalizer :=
  (normalizeTerm (normalizeTerm newTermNormalizer (strBytes "abcdef")).2
    (strBytes "abcdefg")).2

unseal Rat.add Rat.mul Rat.inv Rat.sub Rat.ofScientific in
/-- Counterexample to C2: `GetCanonicalTerms` iterates over every key of the
canonical-terms map without filtering aliases, so after "abcdefg" is aliased
to "abcdef" the returned sequence contains the alias key "abcdefg" even
though it maps to "abcdef", not to itself. -/
theorem claimC2_counterexample :
    ReachN stateC2 ∧
    mapGet stateC2.canonicalTerms (strBytes "abcdefg") = some (strBytes "abcdef") ∧
    strBytes "abcdefg" ≠ strBytes "abcdef" ∧
    strBytes "abcdefg" ∈ getCanonicalTerms stateC2 :=
  ⟨ReachN.step _ (ReachN.step _ ReachN.init), by decide, by decide, by decide⟩

/-- The state after normalizing "alpha beta gamma", normalizing
"alpha beta gammax" (aliased to the former by the prefix heuristic), and
then calling `MergeSimilarTerms`, which merges the pair (similarity 248/255,
above 0.85) keeping the longer "alpha beta gammax": the canonical-terms map
now maps each of the two strings to the other. -/
def stateC1 : TermNormalizer :=
  mergeSimilarTerms
    ((normalizeTerm (normalizeTerm newTermNormalizer nrmA).2 nrmB).2)

unseal Rat.add Rat.mul Rat.inv Rat.sub Rat.ofScientific in
/-- Counterexample to C1: in the reachable state `stateC1`,
`NormalizeTerm("alpha beta gamma")` returns "alpha beta gammax" (exact-match
hit on the merged map entry), but normalizing that result on the resulting
state returns "alpha beta gamma" again (fuzzy-cache hit on the stale
pre-merge entry): `Normalize` is not idempotent on its own output. -/
theorem claimC1_counterexample :
    Reach stateC1 ∧
    (normalizeTerm stateC1 nrmA).1 = nrmB ∧
    (normalizeTerm (normalizeTerm stateC1 nrmA).2 nrmB).1 = nrmA ∧
    nrmA ≠ nrmB :=
  ⟨Reach.merge (Reach.step _ (Reach.step _ Reach.init)), by decide, by decide, by decide⟩

/-! ### Properties of the cleaning step -/

theorem isSpaceByte_toLowerByte (b : Nat) :
    isSpaceByte (toLowerByte b) = isSpaceByte b := by
  unfold toLowerByte
  split_ifs with h
  · have h1 : isSpaceByte (b + 32) = false := by simp [isSpaceByte]; omega
    have h2 : isSpaceByte b = false := by simp [isSpaceByte]; omega
    rw [h1, h2]
  · rfl

theorem dropWhile_goToLower (s : GoString) :
    (goToLower s).dropWhile isSpaceByte = goToLower (s.dropWhile isSpaceByte) := by
  unfold goToLower
  rw [List.dropWhile_map]
  have hf : (isSpaceByte ∘ toLowerByte) = isSpaceByte :=
    funext fun b => isSpaceByte_toLowerByte b
  rw [hf]

theorem goTrimSpace_goToLower (s : GoString) :
    goTrimSpace (goToLower s) = goToLower (goTrimSpace s) := by
  unfold goTrimSpace
  rw [dropWhile_goToLower]
  have h1 : (goToLower (s.dropWhile isSpaceByte)).reverse =
      goToLower (s.dropWhile isSpaceByte).reverse := by
    simp [goToLower]
  rw [h1, dropWhile_goToLower]
  simp [goToLower]

theorem toLowerByte_idem (b : Nat) : toLowerByte (toLowerByte b) = toLowerByte b := by
  unfold toLowerByte
  split_ifs <;> omega

theorem goToLower_idem (s : GoString) : goToLower (goToLower s) = goToLower s := by
  unfold goToLower
  rw [List.map_map]
  exact List.map_congr_left (fun b _ => toLowerByte_idem b)

theorem dropWhile_idem (p : Nat → Bool) (l : List Nat) :
    (l.dropWhile p).dropWhile p = l.dropWhile p := by
  induction l with
  | nil => rfl
  | cons a l ih =>
    by_cases h : p a
    · rw [List.dropWhile_cons_of_pos h, ih]
    · rw [List.dropWhile_cons_of_neg h, List.dropWhile_cons_of_neg h]

/-- Removal of trailing whitespace, the second half of `goTrimSpace`. -/
def dropEndSpace (l : GoString) : GoString :=
  (l.reverse.dropWhile isSpaceByte).reverse

theorem goTrimSpace_eq_dropEnd (s : GoString) :
    goTrimSpace s = dropEndSpace (s.dropWhile isSpaceByte) := rfl

theorem dropWhile_append_singleton (p : Nat → Bool) (w : List Nat) (a : Nat) :
    (w ++ [a]).dropWhile p =
      if w.dropWhile p = [] then [a].dropWhile p else w.dropWhile p ++ [a] := by
  induction w with
  | nil => simp
  | cons b w ih =>
    by_cases h : p b
    · rw [List.cons_append, List.dropWhile_cons_of_pos h, ih,
        List.dropWhile_cons_of_pos h]
    · rw [List.cons_append, List.dropWhile_cons_of_neg h, List.dropWhile_cons_of_neg h]
      simp

theorem dropEndSpace_cons (a : Nat) (l : GoString) :
    dropEndSpace (a :: l) =
      if l.reverse.dropWhile isSpaceByte = [] then ([a].dropWhile isSpaceByte).reverse
      else a :: dropEndSpace l := by
  unfold dropEndSpace
  rw [List.reverse_cons, dropWhile_append_singleton]
  split_ifs with hz
  · rfl
  · simp

theorem dropWhile_dropEndSpace (l : GoString) :
    (dropEndSpace l).dropWhile isSpaceByte = dropEndSpace (l.dropWhile isSpaceByte) := by
  induction l with
  | nil => rfl
  | cons a l ih =>
    rw [dropEndSpace_cons]
    by_cases h : isSpaceByte a
    · by_cases hz : l.reverse.dropWhile isSpaceByte = []
      · have hl : l.dropWhile isSpaceByte = [] := by
          rw [List.dropWhile_eq_nil_iff] at hz ⊢
          intro x hx
          exact hz x (List.mem_reverse.mpr hx)
        rw [if_pos hz]
        simp [List.dropWhile_cons, h, hl, dropEndSpace]
      · rw [if_neg hz, List.dropWhile_cons_of_pos h, List.dropWhile_cons_of_pos h]
        exact ih
    · by_cases hz : l.reverse.dropWhile isSpaceByte = []
      · rw [if_pos hz, List.dropWhile_cons_of_neg h, List.dropWhile_cons_of_neg h,
          dropEndSpace_cons, if_pos hz]
        simp [List.dropWhile_cons, h]
      · rw [if_neg hz, List.dropWhile_cons_of_neg h, List.dropWhile_cons_of_neg h,
          dropEndSpace_cons, if_neg hz]

theorem dropEndSpace_idem (l : GoString) :
    dropEndSpace (dropEndSpace l) = dropEndSpace l := by
  unfold dropEndSpace
  rw [List.reverse_reverse, dropWhile_idem]

theorem goTrimSpace_idem (s : GoString) :
    goTrimSpace (goTrimSpace s) = goTrimSpace s := by
  rw [goTrimSpace_eq_dropEnd, goTrimSpace_eq_dropEnd, dropWhile_dropEndSpace,
    dropWhile_idem, dropEndSpace_idem]

/-- A byte string is clean when lowercasing and trimming leave it unchanged. -/
def isClean (s : GoString) : Prop := goClean s = s

instance isClean.dec (s : GoString) : Decidable (isClean s) :=
  inferInstanceAs (Decidable (goClean s = s))

theorem goClean_idem (s : GoString) : isClean (goClean s) := by
  unfold isClean goClean
  rw [goTrimSpace_goToLower, goToLower_idem, goTrimSpace_idem]

/-! ### Association-list lemmas -/

theorem mem_mapSet {β : Type} {k : GoString} {v : β} :
    ∀ {m : List (GoString × β)} {p}, p ∈ mapSet m k v → p = (k, v) ∨ p ∈ m := by
  intro m
  induction m with
  | nil =>
    intro p hp
    unfold mapSet at hp
    rw [List.mem_singleton] at hp
    exact Or.inl hp
  | cons q rest ih =>
    intro p hp
    obtain ⟨a, b⟩ := q
    unfold mapSet at hp
    by_cases h : a = k
    · rw [if_pos h] at hp
      rcases List.mem_cons.mp hp with h2 | h2
      · subst h
        exact Or.inl h2
      · exact Or.inr (List.mem_cons_of_mem _ h2)
    · rw [if_neg h] at hp
      rcases List.mem_cons.mp hp with h2 | h2
      · exact Or.inr (by rw [h2]; exact List.mem_cons_self _ _)
      · rcases ih h2 with h3 | h3
        · exact Or.inl h3
        · exact Or.inr (List.mem_cons_of_mem _ h3)

theorem mapGet_mapSet {β : Type} (k : GoString) (v : β) :
    ∀ (m : List (GoString × β)) (q : GoString),
      mapGet (mapSet m k v) q = if k = q then some v else mapGet m q := by
  intro m
  induction m with
  | nil =>
    intro q
    unfold mapSet mapGet
    split_ifs with h
    · rfl
    · unfold mapGet
      rfl
  | cons p rest ih =>
    intro q
    obtain ⟨a, b⟩ := p
    unfold mapSet
    by_cases h : a = k
    · rw [if_pos h]
      unfold mapGet
      subst h
      split_ifs with h2
      · rfl
      · rfl
    · rw [if_neg h]
      unfold mapGet
      by_cases h2 : a = q
      · rw [if_pos h2, if_neg (by rw [← h2]; exact fun he => h he.symm)]
        rw [if_pos h2]
      · rw [if_neg h2, if_neg h2, ih]

theorem mapGet_mem {β : Type} :
    ∀ {m : List (GoString × β)} {k : GoString} {v : β},
      mapGet m k = some v → (k, v) ∈ m := by
  intro m
  induction m with
  | nil => intro k v h; cases h
  | cons p rest ih =>
    intro k v h
    obtain ⟨a, b⟩ := p
    unfold mapGet at h
    by_cases h2 : a = k
    · rw [if_pos h2] at h
      cases h
      subst h2
      exact List.mem_cons_self _ _
    · rw [if_neg h2] at h
      exact List.mem_cons_of_mem _ (ih h)

theorem mapGet_eq_none_of_not_mem_keys {β : Type} :
    ∀ {m : List (GoString × β)} {k : GoString}, k ∉ mapKeys m → mapGet m k = none := by
  intro m
  induction m with
  | nil => intro k _; rfl
  | cons p rest ih =>
    intro k hk
    obtain ⟨a, b⟩ := p
    unfold mapGet
    have hne : a ≠ k := by
      intro he
      apply hk
      subst he
      exact List.mem_cons_self _ _
    rw [if_neg hne]
    exact ih (fun h => hk (List.mem_cons_of_mem _ h))

theorem mem_keys_of_mapGet {β : Type} {m : List (GoString × β)} {k : GoString} {v : β}
    (h : mapGet m k = some v) : k ∈ mapKeys m := by
  have := mapGet_mem h
  exact List.mem_map_of_mem Prod.fst this

/-! ### C2: what GetCanonicalTerms actually returns -/

theorem getCanonicalTerms_perm (tn : TermNormalizer) :
    (getCanonicalTerms tn).Perm (mapKeys tn.canonicalTerms) := by
  unfold getCanonicalTerms mapKeys
  have hp := List.perm_insertionSort freqGe
    (tn.canonicalTerms.map (fun p => (p.1, getFrequency tn.root p.1)))
  have h2 := hp.map Prod.fst
  simpa [List.map_map, Function.comp] using h2

theorem getCanonicalTerms_sorted (tn : TermNormalizer) :
    List.Sorted (fun a b => getFrequency tn.root b ≤ getFrequency tn.root a)
      (getCanonicalTerms tn) := by
  unfold getCanonicalTerms
  have hs : List.Sorted freqGe
      ((tn.canonicalTerms.map (fun p => (p.1, getFrequency tn.root p.1))).insertionSort
        freqGe) :=
    List.sorted_insertionSort freqGe _
  have hmem : ∀ q ∈ (tn.canonicalTerms.map
      (fun p => (p.1, getFrequency tn.root p.1))).insertionSort freqGe,
      q.2 = getFrequency tn.root q.1 := by
    intro q hq
    have hq2 : q ∈ tn.canonicalTerms.map (fun p => (p.1, getFrequency tn.root p.1)) :=
      (List.mem_insertionSort freqGe).mp hq
    obtain ⟨p, hp, he⟩ := List.mem_map.mp hq2
    rw [← he]
  have hs2 : List.Pairwise
      (fun q r : GoString × Nat =>
        getFrequency tn.root r.1 ≤ getFrequency tn.root q.1)
      ((tn.canonicalTerms.map (fun p => (p.1, getFrequency tn.root p.1))).insertionSort
        freqGe) := by
    refine List.Pairwise.imp_of_mem ?_ hs
    intro q r hq hr hfr
    unfold freqGe at hfr
    rw [← hmem q hq, ← hmem r hr]
    exact hfr
  exact List.Pairwise.map Prod.fst (fun q r h => h) hs2

/-- C2 (amended): `GetCanonicalTerms` returns every key of the
canonical-terms map — canonical terms and alias keys alike, with no
filtering on `CanonicalTerms[t] == t` — as a permutation of the key
sequence, ordered by non-increasing observed trie frequency. -/
theorem claimC2 :
    ∀ tn : TermNormalizer,
      (getCanonicalTerms tn).Perm (mapKeys tn.canonicalTerms) ∧
      List.Sorted (fun a b => getFrequency tn.root b ≤ getFrequency tn.root a)
        (getCanonicalTerms tn) :=
  fun tn => ⟨getCanonicalTerms_perm tn, getCanonicalTerms_sorted tn⟩

/-! ### C10: key hygiene of the three maps -/

/-- Any canonical-terms binding after a `NormalizeTerm` call is an old
binding or is keyed by the (nonempty) cleaned input. -/
theorem normalizeTerm_ct_mem (tn : TermNormalizer) (x : GoString) :
    ∀ p ∈ (normalizeTerm tn x).2.canonicalTerms,
      p ∈ tn.canonicalTerms ∨ (p.1 = goClean x ∧ goClean x ≠ []) := by
  intro p hp
  by_cases h0 : goClean x = []
  · simp only [normalizeTerm, if_pos h0] at hp
    exact Or.inl hp
  · simp only [normalizeTerm, if_neg h0, registerCanonicalTerm] at hp
    repeat' split at hp
    all_goals
      first
        | exact Or.inl hp
        | (rcases mem_mapSet hp with h | h
           · exact Or.inr ⟨by rw [h], h0⟩
           · exact Or.inl h)

/-- Any cache binding after a `NormalizeTerm` call is an old binding or is
keyed by the (nonempty) cleaned input. -/
theorem normalizeTerm_cache_mem (tn : TermNormalizer) (x : GoString) :
    ∀ p ∈ (normalizeTerm tn x).2.fuzzyMatchCache,
      p ∈ tn.fuzzyMatchCache ∨ (p.1 = goClean x ∧ goClean x ≠ []) := by
  intro p hp
  by_cases h0 : goClean x = []
  · simp only [normalizeTerm, if_pos h0] at hp
    exact Or.inl hp
  · simp only [normalizeTerm, if_neg h0, registerCanonicalTerm] at hp
    repeat' split at hp
    all_goals
      first
        | exact Or.inl hp
        | (rcases mem_mapSet hp with h | h
           · exact Or.inr ⟨by rw [h], h0⟩
           · exact Or.inl h)

/-- Bindings produced by the inner merge loop: either inherited, or both
components are among the candidate terms. -/
theorem mem_mergeInner (root : TrieNode) (t1 : GoString) :
    ∀ (ts : List GoString) (merged : List (GoString × GoString)) (q : GoString × GoString),
      q ∈ mergeInner root t1 ts merged →
      q ∈ merged ∨ (q.1 ∈ t1 :: ts ∧ q.2 ∈ t1 :: ts) := by
  intro ts
  induction ts with
  | nil => exact fun merged q hq => Or.inl hq
  | cons t2 rest ih =>
    intro merged q hq
    have lift : ∀ z : GoString, z ∈ t1 :: rest → z ∈ t1 :: t2 :: rest := by
      intro z hz
      rcases List.mem_cons.mp hz with h | h
      · exact h ▸ List.mem_cons_self _ _
      · exact List.mem_cons_of_mem _ (List.mem_cons_of_mem _ h)
    have step : ∀ merged2, q ∈ mergeInner root t1 rest merged2 →
        (∀ r ∈ merged2, r ∈ merged ∨ (r.1 ∈ t1 :: t2 :: rest ∧ r.2 ∈ t1 :: t2 :: rest)) →
        q ∈ merged ∨ (q.1 ∈ t1 :: t2 :: rest ∧ q.2 ∈ t1 :: t2 :: rest) := by
      intro merged2 hq2 hsub
      rcases ih merged2 q hq2 with h | h
      · exact hsub q h
      · exact Or.inr ⟨lift _ h.1, lift _ h.2⟩
    simp only [mergeInner] at hq
    split_ifs at hq with h1 h2 h3 h4
    · exact step merged hq (fun r hr => Or.inl hr)
    · exact step merged hq (fun r hr => Or.inl hr)
    · refine step (mapSet merged t2 t1) hq ?_
      intro r hr
      rcases mem_mapSet hr with h | h
      · refine Or.inr ⟨?_, ?_⟩
        · rw [h]
          exact List.mem_cons_of_mem _ (List.mem_cons_self _ _)
        · rw [h]
          exact List.mem_cons_self _ _
      · exact Or.inl h
    · refine step (mapSet merged t1 t2) hq ?_
      intro r hr
      rcases mem_mapSet hr with h | h
      · refine Or.inr ⟨?_, ?_⟩
        · rw [h]
          exact List.mem_cons_self _ _
        · rw [h]
          exact List.mem_cons_of_mem _ (List.mem_cons_self _ _)
      · exact Or.inl h
    · exact step merged hq (fun r hr => Or.inl hr)

/-- Bindings produced by the outer merge loop over candidate list `ts`. -/
theorem mem_mergeOuter (root : TrieNode) :
    ∀ (ts : List GoString) (merged : List (GoString × GoString)) (q : GoString × GoString),
      q ∈ mergeOuter root ts merged →
      q ∈ merged ∨ (q.1 ∈ ts ∧ q.2 ∈ ts) := by
  intro ts
  induction ts with
  | nil => exact fun merged q hq => Or.inl hq
  | cons t1 rest ih =>
    intro merged q hq
    unfold mergeOuter at hq
    rcases ih _ q hq with h | h
    · rcases mem_mergeInner root t1 rest merged q h with h2 | h2
      · exact Or.inl h2
      · exact Or.inr h2
    · exact Or.inr ⟨List.mem_cons_of_mem _ h.1, List.mem_cons_of_mem _ h.2⟩

/-- A binding of the replayed merge assignments is an old binding or one of
the assignments. -/
theorem mem_applyMerges :
    ∀ (ms : List (GoString × GoString)) (m : List (GoString × GoString))
      (p : GoString × GoString), p ∈ applyMerges m ms → p ∈ m ∨ p ∈ ms := by
  intro ms
  induction ms with
  | nil => exact fun m p hp => Or.inl hp
  | cons q ms ih =>
    intro m p hp
    unfold applyMerges at hp
    rw [List.foldl_cons] at hp
    rcases ih _ p hp with h | h
    · rcases mem_mapSet h with h2 | h2
      · right
        rw [h2, Prod.mk.eta]
        exact List.mem_cons_self _ _
      · exact Or.inl h2
    · exact Or.inr (List.mem_cons_of_mem _ h)

/-- Every key of the canonical-terms map and of the fuzzy-match cache is
clean (lowercase and trimmed) and nonempty. -/
def KeysClean (tn : TermNormalizer) : Prop :=
  (∀ p ∈ tn.canonicalTerms, isClean p.1 ∧ p.1 ≠ []) ∧
  (∀ p ∈ tn.fuzzyMatchCache, isClean p.1 ∧ p.1 ≠ [])

theorem keysClean_step (tn : TermNormalizer) (x : GoString) (h : KeysClean tn) :
    KeysClean (normalizeTerm tn x).2 := by
  constructor
  · intro p hp
    rcases normalizeTerm_ct_mem tn x p hp with h2 | h2
    · exact h.1 p h2
    · exact ⟨by rw [h2.1]; exact goClean_idem x, by rw [h2.1]; exact h2.2⟩
  · intro p hp
    rcases normalizeTerm_cache_mem tn x p hp with h2 | h2
    · exact h.2 p h2
    · exact ⟨by rw [h2.1]; exact goClean_idem x, by rw [h2.1]; exact h2.2⟩

theorem keysClean_merge (tn : TermNormalizer) (h : KeysClean tn) :
    KeysClean (mergeSimilarTerms tn) := by
  constructor
  · intro p hp
    simp only [mergeSimilarTerms] at hp
    rcases mem_applyMerges _ _ _ hp with h2 | h2
    · exact h.1 p h2
    · rcases mem_mergeOuter _ _ _ _ h2 with h3 | h3
      · cases h3
      · have hk : p.1 ∈ mapKeys tn.canonicalTerms :=
          (getCanonicalTerms_perm tn).mem_iff.mp h3.1
        obtain ⟨q, hq, he⟩ := List.mem_map.mp hk
        have := h.1 q hq
        exact ⟨by rw [← he]; exact this.1, by rw [← he]; exact this.2⟩
  · intro p hp
    exact h.2 p hp

theorem keysClean_reach : ∀ tn : TermNormalizer, Reach tn → KeysClean tn := by
  intro tn h
  induction h with
  | init =>
    constructor
    · intro p hp
      cases hp
    · intro p hp
      cases hp
  | step x _ ih => exact keysClean_step _ x ih
  | merge _ ih => exact keysClean_merge _ ih

/-- Counterexample to C10: `AddRule` lowercases its term but does not trim
it, so adding a rule for " X" (leading space) inserts the untrimmed key
" x" into the rules map. -/
theorem claimC10_counterexample :
    mapGet (addRule initRules (strBytes " X") (strBytes "test")) (strBytes " x") =
      some (strBytes "test") ∧
    ¬ isClean (strBytes " x") := by
  constructor
  · rw [initRules_eq]
    decide
  · decide

/-- C10 (amended): the base rule table's keys are lowercase and trimmed;
every key of the normalizer's canonical-terms map and fuzzy-match cache is
lowercase and trimmed in every state reachable by `NormalizeTerm` and
`MergeSimilarTerms`; but `AddRule` only lowercases: each key it produces is
an old key or the lowercased (not trimmed) term. -/
theorem claimC10 :
    (∀ p ∈ initRules, isClean p.1) ∧
    (∀ (rules : List (GoString × GoString)) (t g : GoString)
      (p : GoString × GoString), p ∈ addRule rules t g →
        p ∈ rules ∨ p.1 = goToLower t) ∧
    (∀ t : GoString, goToLower (goToLower t) = goToLower t) ∧
    (∀ tn : TermNormalizer, Reach tn → KeysClean tn) := by
  refine ⟨?_, ?_, goToLower_idem, keysClean_reach⟩
  · rw [initRules_eq]
    have hall : ∀ q ∈ rulesList, isClean q.1 := by decide
    exact hall
  · intro rules t g p hp
    rcases mem_mapSet hp with h | h
    · exact Or.inr (by rw [h])
    · exact Or.inl h

/-- Witness for C10: the clean-key facts instantiated at a concrete rule, a
concrete `AddRule` call, and the freshly constructed normalizer. -/
theorem claimC10_witness :
    ((strBytes "cardiologist", strBytes "doctor") ∈ initRules ∧
      isClean (strBytes "cardiologist")) ∧
    ((strBytes " x", strBytes "g") ∈ addRule [] (strBytes " X") (strBytes "g")) ∧
    ((strBytes " x", strBytes "g") ∈ ([] : List (GoString × GoString)) ∨
      strBytes " x" = goToLower (strBytes " X")) ∧
    KeysClean newTermNormalizer :=
  ⟨⟨by rw [initRules_eq]; decide,
      claimC10.1 (strBytes "cardiologist", strBytes "doctor")
        (by rw [initRules_eq]; decide)⟩,
    by decide,
    claimC10.2.1 [] (strBytes " X") (strBytes "g") (strBytes " x", strBytes "g")
      (by decide),
    claimC10.2.2.2 newTermNormalizer Reach.init⟩

/-! ### C6: the merge pass never adds canonical terms and is idempotent -/

/-- The number of canonical entries: bindings mapping a term to itself. -/
def countCanonical (tn : TermNormalizer) : Nat :=
  tn.canonicalTerms.countP (fun p => decide (p.1 = p.2))

theorem countP_mapSet_le {k v : GoString} (hkv : k ≠ v) :
    ∀ m : List (GoString × GoString),
      (mapSet m k v).countP (fun p => decide (p.1 = p.2)) ≤
        m.countP (fun p => decide (p.1 = p.2)) := by
  intro m
  induction m with
  | nil =>
    unfold mapSet
    simp [List.countP_cons, hkv]
  | cons q rest ih =>
    obtain ⟨a, b⟩ := q
    unfold mapSet
    by_cases h : a = k
    · rw [if_pos h]
      simp only [List.countP_cons]
      have hv : ¬ (a = v) := by
        intro he
        apply hkv
        rw [← h]
        exact he
      have h0 : (if (decide (a = v)) = true then 1 else 0) = 0 := by simp [hv]
      rw [h0, Nat.add_zero]
      exact Nat.le_add_right _ _
    · rw [if_neg h]
      simp only [List.countP_cons]
      exact Nat.add_le_add_right ih _

theorem mapKeys_mapSet_mem {k : GoString} {β : Type} (v : β) :
    ∀ m : List (GoString × β), k ∈ mapKeys m →
      mapKeys (mapSet m k v) = mapKeys m := by
  intro m
  induction m with
  | nil => intro h; cases h
  | cons q rest ih =>
    intro h
    obtain ⟨a, b⟩ := q
    unfold mapSet
    by_cases h2 : a = k
    · rw [if_pos h2]
      rfl
    · rw [if_neg h2]
      have hk : k ∈ mapKeys rest := by
        rcases List.mem_cons.mp h with h3 | h3
        · exact absurd h3.symm h2
        · exact h3
      show a :: mapKeys (mapSet rest k v) = a :: mapKeys rest
      rw [ih hk]

theorem mapKeys_mapSet_not_mem {k : GoString} {β : Type} (v : β) :
    ∀ m : List (GoString × β), k ∉ mapKeys m →
      mapKeys (mapSet m k v) = mapKeys m ++ [k] := by
  intro m
  induction m with
  | nil => intro _; rfl
  | cons q rest ih =>
    intro h
    obtain ⟨a, b⟩ := q
    unfold mapSet
    have h2 : a ≠ k := fun he => h (he ▸ List.mem_cons_self _ _)
    rw [if_neg h2]
    show a :: mapKeys (mapSet rest k v) = (a :: mapKeys rest) ++ [k]
    rw [ih (fun h3 => h (List.mem_cons_of_mem _ h3))]
    rfl

theorem nodup_mapSet {k : GoString} {β : Type} (v : β) (m : List (GoString × β))
    (h : (mapKeys m).Nodup) : (mapKeys (mapSet m k v)).Nodup := by
  by_cases hk : k ∈ mapKeys m
  · rw [mapKeys_mapSet_mem v m hk]
    exact h
  · rw [mapKeys_mapSet_not_mem v m hk]
    simp [List.nodup_append, h, hk]

/-- The value a key holds after replaying a write sequence from an initial
value. -/
def valueAfter (ms : List (GoString × GoString)) (k : GoString) (v : GoString) :
    GoString :=
  ms.foldl (fun acc q => if q.1 = k then q.2 else acc) v

theorem valueAfter_nil (k : GoString) (v : GoString) : valueAfter [] k v = v := rfl

theorem valueAfter_cons (q : GoString × GoString) (ms : List (GoString × GoString))
    (k : GoString) (v : GoString) :
    valueAfter (q :: ms) k v = valueAfter ms k (if q.1 = k then q.2 else v) := rfl

theorem valueAfter_of_not_written (k : GoString) :
    ∀ (ms : List (GoString × GoString)) (v : GoString),
      (∀ q ∈ ms, q.1 ≠ k) → valueAfter ms k v = v := by
  intro ms
  induction ms with
  | nil => exact fun v _ => rfl
  | cons q ms ih =>
    intro v h
    rw [valueAfter_cons, if_neg (h q (List.mem_cons_self _ _))]
    exact ih v (fun r hr => h r (List.mem_cons_of_mem _ hr))

theorem valueAfter_of_written (k : GoString) :
    ∀ (ms : List (GoString × GoString)) (v v' : GoString),
      (∃ q ∈ ms, q.1 = k) → valueAfter ms k v = valueAfter ms k v' := by
  intro ms
  induction ms with
  | nil =>
    rintro v v' ⟨q, hq, -⟩
    cases hq
  | cons q ms ih =>
    rintro v v' ⟨r, hr, he⟩
    rw [valueAfter_cons, valueAfter_cons]
    rcases List.mem_cons.mp hr with h2 | h2
    · subst h2
      rw [if_pos he, if_pos he]
    · by_cases h3 : q.1 = k
      · rw [if_pos h3, if_pos h3]
      · rw [if_neg h3, if_neg h3]
        exact ih v v' ⟨r, h2, he⟩

theorem valueAfter_idem (ms : List (GoString × GoString)) (k : GoString)
    (v : GoString) : valueAfter ms k (valueAfter ms k v) = valueAfter ms k v := by
  by_cases h : ∃ q ∈ ms, q.1 = k
  · exact valueAfter_of_written k ms _ v h
  · push_neg at h
    rw [valueAfter_of_not_written k ms _ h, valueAfter_of_not_written k ms v h]

/-- With distinct keys, assignment to a present key acts as a pointwise map
over the binding list. -/
theorem mapSet_eq_map {k v : GoString} :
    ∀ m : List (GoString × GoString), (mapKeys m).Nodup → k ∈ mapKeys m →
      mapSet m k v = m.map (fun p => if p.1 = k then (p.1, v) else p) := by
  intro m
  induction m with
  | nil => intro _ h; cases h
  | cons q rest ih =>
    intro hnd hk
    obtain ⟨a, b⟩ := q
    unfold mapSet
    by_cases h : a = k
    · rw [if_pos h]
      subst h
      have hrest : ∀ p ∈ rest, (fun p : GoString × GoString =>
          if p.1 = a then (p.1, v) else p) p = p := by
        intro p hp
        have : p.1 ∈ mapKeys rest := List.mem_map_of_mem Prod.fst hp
        have hne : p.1 ≠ a := by
          intro he
          have : a ∈ mapKeys rest := he ▸ this
          exact (List.nodup_cons.mp hnd).1 this
        simp [hne]
      rw [List.map_cons]
      simp only [if_pos rfl]
      rw [List.map_congr_left hrest]
      simp
    · rw [if_neg h]
      have hk2 : k ∈ mapKeys rest := by
        rcases List.mem_cons.mp hk with h2 | h2
        · exact absurd h2.symm h
        · exact h2
      rw [List.map_cons, ih (List.nodup_cons.mp hnd).2 hk2]
      simp [h]

theorem applyMerges_eq_map :
    ∀ (ms : List (GoString × GoString)) (m : List (GoString × GoString)),
      (mapKeys m).Nodup → (∀ q ∈ ms, q.1 ∈ mapKeys m) →
      applyMerges m ms = m.map (fun p => (p.1, valueAfter ms p.1 p.2)) := by
  intro ms
  induction ms with
  | nil =>
    intro m _ _
    unfold applyMerges
    simp [valueAfter_nil]
  | cons q ms ih =>
    intro m hnd hkeys
    unfold applyMerges
    rw [List.foldl_cons]
    have hq1 : q.1 ∈ mapKeys m := hkeys q (List.mem_cons_self _ _)
    have hset := mapSet_eq_map (k := q.1) (v := q.2) m hnd hq1
    have hkeys2 : mapKeys (mapSet m q.1 q.2) = mapKeys m := mapKeys_mapSet_mem _ m hq1
    have hnd2 : (mapKeys (mapSet m q.1 q.2)).Nodup := by rw [hkeys2]; exact hnd
    have hkeys3 : ∀ r ∈ ms, r.1 ∈ mapKeys (mapSet m q.1 q.2) := by
      intro r hr
      rw [hkeys2]
      exact hkeys r (List.mem_cons_of_mem _ hr)
    have hih := ih (mapSet m q.1 q.2) hnd2 hkeys3
    have hgoal : applyMerges (mapSet m q.1 q.2) ms =
        (mapSet m q.1 q.2).map (fun p => (p.1, valueAfter ms p.1 p.2)) := hih
    rw [show List.foldl (fun m p => mapSet m p.1 p.2) (mapSet m q.1 q.2) ms =
        applyMerges (mapSet m q.1 q.2) ms from rfl, hgoal, hset, List.map_map]
    refine List.map_congr_left ?_
    intro p hp
    dsimp only [Function.comp]
    by_cases h : p.1 = q.1
    · rw [if_pos h, valueAfter_cons, if_pos h.symm]
    · rw [if_neg h, valueAfter_cons, if_neg (fun he => h he.symm)]

theorem countP_applyMerges_le :
    ∀ (ms : List (GoString × GoString)) (m : List (GoString × GoString)),
      (∀ q ∈ ms, q.1 ≠ q.2) →
      (applyMerges m ms).countP (fun p => decide (p.1 = p.2)) ≤
        m.countP (fun p => decide (p.1 = p.2)) := by
  intro ms
  induction ms with
  | nil => exact fun m _ => le_refl _
  | cons q ms ih =>
    intro m h
    unfold applyMerges
    rw [List.foldl_cons]
    refine le_trans ?_ (countP_mapSet_le (h q (List.mem_cons_self _ _)) m)
    exact ih (mapSet m q.1 q.2) (fun r hr => h r (List.mem_cons_of_mem _ hr))

theorem mapKeys_applyMerges :
    ∀ (ms : List (GoString × GoString)) (m : List (GoString × GoString)),
      (∀ q ∈ ms, q.1 ∈ mapKeys m) →
      mapKeys (applyMerges m ms) = mapKeys m := by
  intro ms
  induction ms with
  | nil => exact fun m _ => rfl
  | cons q ms ih =>
    intro m h
    unfold applyMerges
    rw [List.foldl_cons]
    have hq := h q (List.mem_cons_self _ _)
    have hk : mapKeys (mapSet m q.1 q.2) = mapKeys m := mapKeys_mapSet_mem _ m hq
    have hr : ∀ r ∈ ms, r.1 ∈ mapKeys (mapSet m q.1 q.2) := by
      intro r hrm
      rw [hk]
      exact h r (List.mem_cons_of_mem _ hrm)
    exact (ih (mapSet m q.1 q.2) hr).trans hk

theorem mergeInner_ne (root : TrieNode) (t1 : GoString) :
    ∀ (ts : List GoString) (merged : List (GoString × GoString)),
      (t1 :: ts).Nodup → (∀ q ∈ merged, q.1 ≠ q.2) →
      ∀ q ∈ mergeInner root t1 ts merged, q.1 ≠ q.2 := by
  intro ts
  induction ts with
  | nil => exact fun merged _ hm q hq => hm q hq
  | cons t2 rest ih =>
    intro merged hnd hm q hq
    have hnd2 : (t1 :: rest).Nodup := by
      rcases List.nodup_cons.mp hnd with ⟨h1, h2⟩
      rcases List.nodup_cons.mp h2 with ⟨h3, h4⟩
      exact List.nodup_cons.mpr ⟨fun h => h1 (List.mem_cons_of_mem _ h), h4⟩
    have h12 : t1 ≠ t2 := by
      intro he
      exact (List.nodup_cons.mp hnd).1 (he ▸ List.mem_cons_self _ _)
    simp only [mergeInner] at hq
    split_ifs at hq with h1 h2 h3 h4
    · exact ih merged hnd2 hm q hq
    · exact ih merged hnd2 hm q hq
    · refine ih _ hnd2 ?_ q hq
      intro r hr
      rcases mem_mapSet hr with h | h
      · rw [h]
        exact fun he => h12 he.symm
      · exact hm r h
    · refine ih _ hnd2 ?_ q hq
      intro r hr
      rcases mem_mapSet hr with h | h
      · rw [h]
        exact h12
      · exact hm r h
    · exact ih merged hnd2 hm q hq

theorem mergeOuter_ne (root : TrieNode) :
    ∀ (ts : List GoString) (merged : List (GoString × GoString)),
      ts.Nodup → (∀ q ∈ merged, q.1 ≠ q.2) →
      ∀ q ∈ mergeOuter root ts merged, q.1 ≠ q.2 := by
  intro ts
  induction ts with
  | nil => exact fun merged _ hm q hq => hm q hq
  | cons t1 rest ih =>
    intro merged hnd hm q hq
    unfold mergeOuter at hq
    exact ih _ (List.nodup_cons.mp hnd).2
      (mergeInner_ne root t1 rest merged hnd hm) q hq

/-- Every assignment key of a merge pass is a key of the canonical-terms
map. -/
theorem mergeWrites_keys (tn : TermNormalizer) :
    ∀ q ∈ mergeOuter tn.root (getCanonicalTerms tn) [],
      q.1 ∈ mapKeys tn.canonicalTerms := by
  intro q hq
  rcases mem_mergeOuter _ _ _ _ hq with h | h
  · cases h
  · exact (getCanonicalTerms_perm tn).mem_iff.mp h.1

/-- A merge pass changes only the values of the canonical-terms map, so the
key-frequency pairs feeding `GetCanonicalTerms` are unchanged. -/
theorem getCanonicalTerms_merge (tn : TermNormalizer)
    (hnd : (mapKeys tn.canonicalTerms).Nodup) :
    getCanonicalTerms (mergeSimilarTerms tn) = getCanonicalTerms tn := by
  unfold getCanonicalTerms
  have hct : (mergeSimilarTerms tn).canonicalTerms =
      applyMerges tn.canonicalTerms (mergeOuter tn.root (getCanonicalTerms tn) []) := rfl
  have hroot : (mergeSimilarTerms tn).root = tn.root := rfl
  rw [hct, hroot]
  rw [applyMerges_eq_map _ _ hnd (mergeWrites_keys tn), List.map_map]
  rfl

theorem applyMerges_idem (ms : List (GoString × GoString))
    (m : List (GoString × GoString)) (hnd : (mapKeys m).Nodup)
    (hk : ∀ q ∈ ms, q.1 ∈ mapKeys m) :
    applyMerges (applyMerges m ms) ms = applyMerges m ms := by
  have h1 := applyMerges_eq_map ms m hnd hk
  have hkeys : mapKeys (applyMerges m ms) = mapKeys m := mapKeys_applyMerges ms m hk
  have hnd2 : (mapKeys (applyMerges m ms)).Nodup := by rw [hkeys]; exact hnd
  have hk2 : ∀ q ∈ ms, q.1 ∈ mapKeys (applyMerges m ms) := by
    intro q hq
    rw [hkeys]
    exact hk q hq
  rw [applyMerges_eq_map ms _ hnd2 hk2, h1, List.map_map]
  refine List.map_congr_left ?_
  intro p hp
  simp only [Function.comp]
  rw [valueAfter_idem]

/-- The shape of the canonical-terms map after a `NormalizeTerm` call:
unchanged, or one assignment keyed by the cleaned input. -/
theorem normalizeTerm_ct_shape (tn : TermNormalizer) (x : GoString) :
    (normalizeTerm tn x).2.canonicalTerms = tn.canonicalTerms ∨
    ∃ v, (normalizeTerm tn x).2.canonicalTerms =
      mapSet tn.canonicalTerms (goClean x) v := by
  by_cases h0 : goClean x = []
  · left
    simp only [normalizeTerm, if_pos h0]
  · simp only [normalizeTerm, if_neg h0, registerCanonicalTerm]
    repeat' split
    all_goals
      first
        | exact Or.inl rfl
        | exact Or.inr ⟨_, rfl⟩

theorem nodupKeys_reach :
    ∀ tn : TermNormalizer, Reach tn → (mapKeys tn.canonicalTerms).Nodup := by
  intro tn h
  induction h with
  | init => exact List.nodup_nil
  | step x h ih =>
    rename_i tn2
    rcases normalizeTerm_ct_shape tn2 x with hs | ⟨v, hs⟩
    · rw [hs]
      exact ih
    · rw [hs]
      exact nodup_mapSet v _ ih
  | merge h ih =>
    rename_i tn2
    have hct : (mergeSimilarTerms tn2).canonicalTerms =
        applyMerges tn2.canonicalTerms
          (mergeOuter tn2.root (getCanonicalTerms tn2) []) := rfl
    rw [hct, mapKeys_applyMerges _ _ (mergeWrites_keys tn2)]
    exact ih

/-- C6: on every reachable state, `MergeSimilarTerms` never increases the
number of canonical terms (bindings with `CanonicalTerms[t] == t`), and
running it a second time immediately leaves the canonical-terms map
unchanged. -/
theorem claimC6 :
    ∀ tn : TermNormalizer, Reach tn →
      countCanonical (mergeSimilarTerms tn) ≤ countCanonical tn ∧
      (mergeSimilarTerms (mergeSimilarTerms tn)).canonicalTerms =
        (mergeSimilarTerms tn).canonicalTerms := by
  intro tn hre
  have hnd := nodupKeys_reach tn hre
  constructor
  · unfold countCanonical
    have hct : (mergeSimilarTerms tn).canonicalTerms =
        applyMerges tn.canonicalTerms
          (mergeOuter tn.root (getCanonicalTerms tn) []) := rfl
    rw [hct]
    refine countP_applyMerges_le _ _ ?_
    have hndc : (getCanonicalTerms tn).Nodup :=
      (getCanonicalTerms_perm tn).nodup_iff.mpr hnd
    exact mergeOuter_ne tn.root _ [] hndc (fun q hq => by cases hq)
  · have h2 : (mergeSimilarTerms (mergeSimilarTerms tn)).canonicalTerms =
        applyMerges (mergeSimilarTerms tn).canonicalTerms
          (mergeOuter tn.root (getCanonicalTerms tn) []) := by
      have hroot : (mergeSimilarTerms tn).root = tn.root := rfl
      have hstep : (mergeSimilarTerms (mergeSimilarTerms tn)).canonicalTerms =
          applyMerges (mergeSimilarTerms tn).canonicalTerms
            (mergeOuter (mergeSimilarTerms tn).root
              (getCanonicalTerms (mergeSimilarTerms tn)) []) := rfl
      rw [hstep, hroot, getCanonicalTerms_merge tn hnd]
    rw [h2]
    have hct : (mergeSimilarTerms tn).canonicalTerms =
        applyMerges tn.canonicalTerms
          (mergeOuter tn.root (getCanonicalTerms tn) []) := rfl
    rw [hct]
    exact applyMerges_idem _ _ hnd (mergeWrites_keys tn)

/-- Witness for C6 at the freshly constructed (empty) normalizer. -/
theorem claimC6_witness :
    Reach newTermNormalizer ∧
      (countCanonical (mergeSimilarTerms newTermNormalizer) ≤
        countCanonical newTermNormalizer ∧
      (mergeSimilarTerms (mergeSimilarTerms newTermNormalizer)).canonicalTerms =
        (mergeSimilarTerms newTermNormalizer).canonicalTerms) :=
  ⟨Reach.init, claimC6 newTermNormalizer Reach.init⟩

/-! ### C1: idempotence of NormalizeTerm on merge-free states -/

/-- All terminal labels in a trie satisfy `P`. -/
inductive TrieOK (P : GoString → Prop) : TrieNode → Prop
  | mk {ch : List (Nat × TrieNode)} {e : Bool} {canon : GoString} {f : Nat} :
      (e = true → P canon) → (∀ c t, (c, t) ∈ ch → TrieOK P t) →
      TrieOK P (.mk ch e canon f)

theorem TrieOK.empty {P : GoString → Prop} : TrieOK P TrieNode.empty :=
  TrieOK.mk (fun h => nomatch h) (fun _ _ h => nomatch h)

theorem TrieOK.mono {P Q : GoString → Prop} (hpq : ∀ s, P s → Q s) :
    ∀ {t : TrieNode}, TrieOK P t → TrieOK Q t := by
  intro t h
  induction h with
  | mk hcanon hch ih => exact TrieOK.mk (fun he => hpq _ (hcanon he)) ih

theorem TrieOK.label {P : GoString → Prop} {t : TrieNode} (h : TrieOK P t)
    (he : t.isEnd = true) : P t.canonicalTerm := by
  cases h with
  | mk hcanon hch => exact hcanon he

theorem TrieOK.child {P : GoString → Prop} {t : TrieNode} (h : TrieOK P t)
    {c : Nat} {u : TrieNode} (hc : (c, u) ∈ t.children) : TrieOK P u := by
  cases h with
  | mk hcanon hch => exact hch c u hc

theorem childGet_mem {c : Nat} {t : TrieNode} :
    ∀ {ch : List (Nat × TrieNode)}, childGet ch c = some t → (c, t) ∈ ch := by
  intro ch
  induction ch with
  | nil => intro h; cases h
  | cons q rest ih =>
    intro h
    obtain ⟨a, u⟩ := q
    unfold childGet at h
    by_cases h2 : a = c
    · rw [if_pos h2] at h
      cases h
      subst h2
      exact List.mem_cons_self _ _
    · rw [if_neg h2] at h
      exact List.mem_cons_of_mem _ (ih h)

theorem mem_childSet {c : Nat} {t : TrieNode} :
    ∀ {ch : List (Nat × TrieNode)} {p}, p ∈ childSet ch c t → p = (c, t) ∨ p ∈ ch := by
  intro ch
  induction ch with
  | nil =>
    intro p hp
    unfold childSet at hp
    rw [List.mem_singleton] at hp
    exact Or.inl hp
  | cons q rest ih =>
    intro p hp
    obtain ⟨a, u⟩ := q
    unfold childSet at hp
    by_cases h : a = c
    · rw [if_pos h] at hp
      rcases List.mem_cons.mp hp with h2 | h2
      · subst h
        exact Or.inl h2
      · exact Or.inr (List.mem_cons_of_mem _ h2)
    · rw [if_neg h] at hp
      rcases List.mem_cons.mp hp with h2 | h2
      · exact Or.inr (by rw [h2]; exact List.mem_cons_self _ _)
      · rcases ih h2 with h3 | h3
        · exact Or.inl h3
        · exact Or.inr (List.mem_cons_of_mem _ h3)

theorem TrieOK.insert {P : GoString → Prop} {canon : GoString} (hP : P canon) :
    ∀ (term : GoString) (t : TrieNode), TrieOK P t → TrieOK P (trieInsert term t canon) := by
  intro term
  induction term with
  | nil =>
    intro t h
    cases h with
    | mk hcanon hch => exact TrieOK.mk (fun _ => hP) hch
  | cons c rest ih =>
    intro t h
    cases h with
    | @mk ch e cn f hcanon hch =>
      show TrieOK P (TrieNode.mk
        (childSet ch c (trieInsert rest ((childGet ch c).getD TrieNode.empty) canon))
        e cn f)
      refine TrieOK.mk hcanon ?_
      intro c' t' hmem
      rcases mem_childSet hmem with h2 | h2
      · have ht' : t' = trieInsert rest ((childGet ch c).getD TrieNode.empty) canon := by
          have := congrArg Prod.snd h2
          simpa using this
        rw [ht']
        refine ih _ ?_
        cases hcg : childGet ch c with
        | none => exact TrieOK.empty
        | some t0 => exact hch c t0 (childGet_mem hcg)
      · exact hch c' t' h2

/-- The longest-prefix walk returns its accumulator or a terminal label. -/
theorem flpmAux_spec {P : GoString → Prop} :
    ∀ (term : GoString) (node : TrieNode) (last : GoString),
      TrieOK P node → (last = [] ∨ P last) →
      (flpmAux node term last = [] ∨ P (flpmAux node term last)) := by
  intro term
  induction term with
  | nil => exact fun node last _ h => h
  | cons c rest ih =>
    intro node last hok hlast
    unfold flpmAux
    cases hc : childGet node.children c with
    | none => exact hlast
    | some child =>
      have hchild : TrieOK P child := hok.child (childGet_mem hc)
      refine ih child _ hchild ?_
      by_cases he : child.isEnd = true
      · rw [if_pos he]
        exact Or.inr (hchild.label he)
      · rw [if_neg he]
        exact hlast

/-- What the fuzzy-match scan returns: the empty sentinel or a canonical
entry of the map. -/
theorem findBestFuzzyMatch_spec (ct : List (GoString × GoString))
    (hnd : (mapKeys ct).Nodup) (term : GoString) :
    findBestFuzzyMatch ct term = [] ∨
      mapGet ct (findBestFuzzyMatch ct term) = some (findBestFuzzyMatch ct term) := by
  unfold findBestFuzzyMatch
  have haux : ∀ (rs : List (GoString × GoString)), (∀ p ∈ rs, p ∈ ct) →
      ∀ acc : GoString × ℚ, (acc.1 = [] ∨ mapGet ct acc.1 = some acc.1) →
      ((rs.foldl (fuzzyMatchStep term) acc).1 = [] ∨
        mapGet ct (rs.foldl (fuzzyMatchStep term) acc).1 =
          some (rs.foldl (fuzzyMatchStep term) acc).1) := by
    intro rs
    induction rs with
    | nil => exact fun _ acc h => h
    | cons p rest ih =>
      intro hsub acc hacc
      rw [List.foldl_cons]
      obtain ⟨k, v⟩ := p
      refine ih (fun q hq => hsub q (List.mem_cons_of_mem _ hq))
        (fuzzyMatchStep term acc (k, v)) ?_
      simp only [fuzzyMatchStep]
      split_ifs with h1 h2
      · exact hacc
      · push_neg at h1
        subst h1
        have hp : (k, k) ∈ ct := hsub (k, k) (List.mem_cons_self _ _)
        right
        exact mapGet_of_mem_nodup hnd (p := (k, k)) hp
      · exact hacc
  exact haux ct (fun p hp => hp) ([], 0) (Or.inl rfl)

theorem not_mem_keys_of_mapGet_none {β : Type} :
    ∀ {m : List (GoString × β)} {k : GoString}, mapGet m k = none → k ∉ mapKeys m := by
  intro m
  induction m with
  | nil => intro k _ hk; cases hk
  | cons p rest ih =>
    intro k h hk
    obtain ⟨a, b⟩ := p
    unfold mapGet at h
    simp only [mapKeys, List.map_cons, List.mem_cons] at hk
    by_cases h2 : a = k
    · rw [if_pos h2] at h
      cases h
    · rw [if_neg h2] at h
      rcases hk with h3 | h3
      · exact h2 h3.symm
      · exact ih h h3

/-- The invariant of merge-free normalizer states behind C1: values of the
canonical map and of the fuzzy cache are fixed points of the canonical map,
cache keys are not fixed points, and every terminal trie label is a
nonempty fixed point. -/
def InvN (tn : TermNormalizer) : Prop :=
  (∀ p ∈ tn.canonicalTerms, mapGet tn.canonicalTerms p.2 = some p.2) ∧
  (∀ p ∈ tn.fuzzyMatchCache, mapGet tn.canonicalTerms p.2 = some p.2 ∧
    mapGet tn.canonicalTerms p.1 ≠ some p.1) ∧
  TrieOK (fun lab => mapGet tn.canonicalTerms lab = some lab ∧ lab ≠ []) tn.root

theorem cacheGet_of_fixed (tn : TermNormalizer) (hinv : InvN tn) {w : GoString}
    (hw : mapGet tn.canonicalTerms w = some w) :
    mapGet tn.fuzzyMatchCache w = none := by
  apply mapGet_eq_none_of_not_mem_keys
  intro hk
  obtain ⟨p, hp, he⟩ := List.mem_map.mp hk
  have h2 := (hinv.2.1 p hp).2
  rw [he] at h2
  exact h2 hw

theorem fixed_clean (tn : TermNormalizer) (hkc : KeysClean tn) {w : GoString}
    (hw : mapGet tn.canonicalTerms w = some w) : isClean w ∧ w ≠ [] :=
  hkc.1 (w, w) (mapGet_mem hw)

/-- Installing an alias `cleaned ↦ w` for an existing fixed point `w`
(the prefix and fuzzy tiers of `NormalizeTerm`) preserves the invariant,
and afterwards `w` is still a fixed point absent from the cache. -/
theorem aliasInv (tn : TermNormalizer) (cleaned w : GoString)
    (tv : List (GoString × List GoString)) (hinv : InvN tn)
    (hct : mapGet tn.canonicalTerms cleaned = none)
    (hcache : mapGet tn.fuzzyMatchCache cleaned = none)
    (hw : mapGet tn.canonicalTerms w = some w) (hwne : w ≠ []) :
    InvN ⟨trieInsert cleaned tn.root w, mapSet tn.canonicalTerms cleaned w, tv,
      mapSet tn.fuzzyMatchCache cleaned w⟩ ∧
    mapGet (mapSet tn.canonicalTerms cleaned w) w = some w ∧
    mapGet (mapSet tn.fuzzyMatchCache cleaned w) w = none := by
  have hne : cleaned ≠ w := by
    intro he
    rw [he, hw] at hct
    cases hct
  have hpres : ∀ z : GoString, mapGet tn.canonicalTerms z = some z →
      mapGet (mapSet tn.canonicalTerms cleaned w) z = some z := by
    intro z hz
    have hnz : cleaned ≠ z := by
      intro he
      rw [he, hz] at hct
      cases hct
    rw [mapGet_mapSet, if_neg hnz]
    exact hz
  have hw' : mapGet (mapSet tn.canonicalTerms cleaned w) w = some w := hpres w hw
  refine ⟨⟨?_, ?_, ?_⟩, hw', ?_⟩
  · intro p hp
    rcases mem_mapSet hp with h2 | h2
    · rw [h2]
      exact hw'
    · exact hpres p.2 (hinv.1 p h2)
  · intro p hp
    rcases mem_mapSet hp with h2 | h2
    · rw [h2]
      refine ⟨hw', ?_⟩
      rw [mapGet_mapSet, if_pos rfl]
      intro he
      exact hne (Option.some.inj he).symm
    · obtain ⟨h3, h4⟩ := hinv.2.1 p h2
      refine ⟨hpres p.2 h3, ?_⟩
      have hp1 : cleaned ≠ p.1 := by
        intro he
        exact not_mem_keys_of_mapGet_none hcache
          (he ▸ List.mem_map_of_mem Prod.fst h2)
      rw [mapGet_mapSet, if_neg hp1]
      exact h4
  · exact TrieOK.insert ⟨hw', hwne⟩ _ _
      (hinv.2.2.mono (fun s hs => ⟨hpres s hs.1, hs.2⟩))
  · rw [mapGet_mapSet, if_neg hne]
    exact cacheGet_of_fixed tn hinv hw

/-- Registering `cleaned` as a fresh canonical term (the last tier of
`NormalizeTerm`) preserves the invariant, and afterwards `cleaned` is a
fixed point absent from the cache. -/
theorem registerInv (tn : TermNormalizer) (cleaned : GoString) (hinv : InvN tn)
    (hct : mapGet tn.canonicalTerms cleaned = none)
    (hcache : mapGet tn.fuzzyMatchCache cleaned = none) (hclne : cleaned ≠ []) :
    InvN (registerCanonicalTerm tn cleaned) ∧
    mapGet (registerCanonicalTerm tn cleaned).canonicalTerms cleaned = some cleaned ∧
    mapGet (registerCanonicalTerm tn cleaned).fuzzyMatchCache cleaned = none := by
  have hself : mapGet (mapSet tn.canonicalTerms cleaned cleaned) cleaned = some cleaned := by
    rw [mapGet_mapSet, if_pos rfl]
  have hpres : ∀ z : GoString, mapGet tn.canonicalTerms z = some z →
      mapGet (mapSet tn.canonicalTerms cleaned cleaned) z = some z := by
    intro z hz
    have hnz : cleaned ≠ z := by
      intro he
      rw [he, hz] at hct
      cases hct
    rw [mapGet_mapSet, if_neg hnz]
    exact hz
  simp only [registerCanonicalTerm]
  refine ⟨⟨?_, ?_, ?_⟩, hself, hcache⟩
  · intro p hp
    rcases mem_mapSet hp with h2 | h2
    · rw [h2]
      exact hself
    · exact hpres p.2 (hinv.1 p h2)
  · intro p hp
    obtain ⟨h3, h4⟩ := hinv.2.1 p hp
    refine ⟨hpres p.2 h3, ?_⟩
    have hp1 : cleaned ≠ p.1 := by
      intro he
      exact not_mem_keys_of_mapGet_none hcache
        (he ▸ List.mem_map_of_mem Prod.fst hp)
    rw [mapGet_mapSet, if_neg hp1]
    exact h4
  · exact TrieOK.insert ⟨hself, hclne⟩ _ _
      (hinv.2.2.mono (fun s hs => ⟨hpres s hs.1, hs.2⟩))

/-- One `NormalizeTerm` call preserves the merge-free invariant, and its
result is either the untouched input (empty after cleaning) or a canonical
fixed point absent from the fuzzy cache. -/
theorem normalizeTerm_invN (tn : TermNormalizer) (x : GoString)
    (hinv : InvN tn) (hnd : (mapKeys tn.canonicalTerms).Nodup) (hkc : KeysClean tn) :
    InvN (normalizeTerm tn x).2 ∧
      ((goClean x = [] ∧ (normalizeTerm tn x).1 = x) ∨
       (mapGet (normalizeTerm tn x).2.canonicalTerms (normalizeTerm tn x).1 =
          some (normalizeTerm tn x).1 ∧
        mapGet (normalizeTerm tn x).2.fuzzyMatchCache (normalizeTerm tn x).1 = none ∧
        (normalizeTerm tn x).1 ≠ [])) := by
  by_cases h0 : goClean x = []
  · refine ⟨?_, Or.inl ⟨h0, ?_⟩⟩
    · simp only [normalizeTerm, if_pos h0]
      exact hinv
    · simp only [normalizeTerm, if_pos h0]
  · cases hc1 : mapGet tn.fuzzyMatchCache (goClean x) with
    | some v =>
      have hvfix : mapGet tn.canonicalTerms v = some v :=
        (hinv.2.1 _ (mapGet_mem hc1)).1
      have hvc := fixed_clean tn hkc hvfix
      have hres : normalizeTerm tn x =
          (v, { tn with root := trieInsert (goClean x) tn.root v }) := by
        simp only [normalizeTerm, if_neg h0, hc1]
      rw [hres]
      refine ⟨⟨hinv.1, hinv.2.1, ?_⟩,
        Or.inr ⟨hvfix, cacheGet_of_fixed tn hinv hvfix, hvc.2⟩⟩
      exact TrieOK.insert ⟨hvfix, hvc.2⟩ _ _ hinv.2.2
    | none =>
      cases hc2 : mapGet tn.canonicalTerms (goClean x) with
      | some v =>
        have hvfix : mapGet tn.canonicalTerms v = some v := hinv.1 _ (mapGet_mem hc2)
        have hvc := fixed_clean tn hkc hvfix
        have hres : normalizeTerm tn x =
            (v, { tn with root := trieInsert (goClean x) tn.root v }) := by
          simp only [normalizeTerm, if_neg h0, hc1, hc2]
        rw [hres]
        refine ⟨⟨hinv.1, hinv.2.1, ?_⟩,
          Or.inr ⟨hvfix, cacheGet_of_fixed tn hinv hvfix, hvc.2⟩⟩
        exact TrieOK.insert ⟨hvfix, hvc.2⟩ _ _ hinv.2.2
      | none =>
        by_cases hpm : findLongestPrefixMatch tn.root (goClean x) ≠ [] ∧
            prefixSimilar (goClean x) (findLongestPrefixMatch tn.root (goClean x)) = true
        · have hres : normalizeTerm tn x =
              (findLongestPrefixMatch tn.root (goClean x),
               { tn with
                 fuzzyMatchCache := mapSet tn.fuzzyMatchCache (goClean x)
                   (findLongestPrefixMatch tn.root (goClean x))
                 canonicalTerms := mapSet tn.canonicalTerms (goClean x)
                   (findLongestPrefixMatch tn.root (goClean x))
                 root := trieInsert (goClean x) tn.root
                   (findLongestPrefixMatch tn.root (goClean x)) }) := by
            simp only [normalizeTerm, if_neg h0, hc1, hc2, if_pos hpm]
          rcases flpmAux_spec (goClean x) tn.root [] hinv.2.2 (Or.inl rfl) with he | hfix
          · exact absurd he hpm.1
          · obtain ⟨hfix2, hwne⟩ := hfix
            have hal := aliasInv tn (goClean x) (findLongestPrefixMatch tn.root (goClean x))
              tn.termVariations hinv hc2 hc1 hfix2 hwne
            rw [hres]
            exact ⟨hal.1, Or.inr ⟨hal.2.1, hal.2.2, hwne⟩⟩
        · by_cases hbm : findBestFuzzyMatch tn.canonicalTerms (goClean x) ≠ []
          · have hres : normalizeTerm tn x =
                (findBestFuzzyMatch tn.canonicalTerms (goClean x),
                 { tn with
                   fuzzyMatchCache := mapSet tn.fuzzyMatchCache (goClean x)
                     (findBestFuzzyMatch tn.canonicalTerms (goClean x))
                   canonicalTerms := mapSet tn.canonicalTerms (goClean x)
                     (findBestFuzzyMatch tn.canonicalTerms (goClean x))
                   root := trieInsert (goClean x) tn.root
                     (findBestFuzzyMatch tn.canonicalTerms (goClean x))
                   termVariations := mapSet tn.termVariations
                     (findBestFuzzyMatch tn.canonicalTerms (goClean x))
                     ((mapGet tn.termVariations
                        (findBestFuzzyMatch tn.canonicalTerms (goClean x))).getD []
                       ++ [goClean x]) }) := by
              simp only [normalizeTerm, if_neg h0, hc1, hc2, if_neg hpm, if_pos hbm]
            rcases findBestFuzzyMatch_spec tn.canonicalTerms hnd (goClean x) with he | hfix
            · exact absurd he hbm
            · have hal := aliasInv tn (goClean x) (findBestFuzzyMatch tn.canonicalTerms (goClean x))
                (mapSet tn.termVariations (findBestFuzzyMatch tn.canonicalTerms (goClean x))
                  ((mapGet tn.termVariations
                     (findBestFuzzyMatch tn.canonicalTerms (goClean x))).getD []
                    ++ [goClean x]))
                hinv hc2 hc1 hfix hbm
              rw [hres]
              exact ⟨hal.1, Or.inr ⟨hal.2.1, hal.2.2, hbm⟩⟩
          · have hres : normalizeTerm tn x =
                (goClean x, registerCanonicalTerm tn (goClean x)) := by
              simp only [normalizeTerm, if_neg h0, hc1, hc2, if_neg hpm, if_neg hbm]
            have hreg := registerInv tn (goClean x) hinv hc2 hc1 h0
            rw [hres]
            exact ⟨hreg.1, Or.inr ⟨hreg.2.1, hreg.2.2, h0⟩⟩

theorem reachN_reach : ∀ {tn : TermNormalizer}, ReachN tn → Reach tn := by
  intro tn h
  induction h with
  | init => exact Reach.init
  | step x h ih => exact Reach.step x ih

theorem invN_reach : ∀ tn : TermNormalizer, ReachN tn → InvN tn := by
  intro tn h
  induction h with
  | init =>
    refine ⟨?_, ?_, TrieOK.empty⟩
    · intro p hp
      cases hp
    · intro p hp
      cases hp
  | step x h ih =>
    rename_i tn2
    exact (normalizeTerm_invN tn2 x ih (nodupKeys_reach tn2 (reachN_reach h))
      (keysClean_reach tn2 (reachN_reach h))).1

/-- C1 (amended): on every state reachable by `NormalizeTerm` calls alone
(no `MergeSimilarTerms`), normalizing the string that `NormalizeTerm` just
returned, in the state it left behind, yields that same string back. -/
theorem claimC1 (tn : TermNormalizer) (hre : ReachN tn) (x : GoString) :
    (normalizeTerm (normalizeTerm tn x).2 (normalizeTerm tn x).1).1 =
      (normalizeTerm tn x).1 := by
  have hinv := invN_reach tn hre
  have hnd := nodupKeys_reach tn (reachN_reach hre)
  have hkc := keysClean_reach tn (reachN_reach hre)
  obtain ⟨hinv2, hpost⟩ := normalizeTerm_invN tn x hinv hnd hkc
  rcases hpost with ⟨he, hc⟩ | ⟨hfix, hcache, hne⟩
  · rw [hc]
    simp only [normalizeTerm, if_pos he]
  · have hkc2 : KeysClean (normalizeTerm tn x).2 := keysClean_step tn x hkc
    have hcl := (hkc2.1 _ (mapGet_mem hfix)).1
    simp only [isClean] at hcl
    revert hfix hcache hne hcl
    generalize normalizeTerm tn x = r
    obtain ⟨c, tn2⟩ := r
    intro hfix hcache hne hcl
    simp only [normalizeTerm, hcl, hcache, hfix, if_neg hne]

/-- C1 witness: the idempotence theorem applied in the initial state to the
input "a". -/
theorem claimC1_witness :
    (normalizeTerm (normalizeTerm newTermNormalizer (strBytes "a")).2
        (normalizeTerm newTermNormalizer (strBytes "a")).1).1 =
      (normalizeTerm newTermNormalizer (strBytes "a")).1 :=
  claimC1 newTermNormalizer ReachN.init (strBytes "a")

end GoModel
